import Mathlib

/-!
Shallow embedding of the raze-lang frontend (lexer + recursive-descent
parser) from `src/crates/frontend/src/lexer.rs`, `parser.rs`, `expr.rs`.

Modelling conventions:
* Rust `Vec<char>` becomes `List Char`; character indices are `Nat`.
* Rust's Unicode character classes `is_numeric` / `is_alphabetic` /
  `is_alphanumeric` are modelled by the ASCII classifiers `Char.isDigit`
  / `Char.isAlpha` / `Char.isAlphanum` (the claims only concern ASCII
  sources).
* Mutable scanners become explicit state passing.  Scan loops that the
  Rust code writes as `while`-loops are written with a fuel parameter;
  every call site passes fuel `code.length + 1`, which dominates the
  number of iterations (each iteration advances `current` by one).
* The parser's mutual recursion (`parse_grouping` re-enters
  `parse_expr`) is embedded with a fuel parameter as well; running out
  of fuel yields `none`.  A Rust `Err` return carries the mutated
  `self`, so parser results are a sum that carries the state in both
  the success and the error case.
-/

namespace Raze

/-- `tools::results::Loc \x7b start, end \x7d` — character-index span.
The Rust field `end` is a Lean keyword and is rendered `stop`. -/
structure Loc where
  start : Nat
  stop : Nat
deriving Repr, DecidableEq

/-- Constructor mirroring `Loc::new(start, end)`. -/
def Loc.new (a b : Nat) : Loc := ⟨a, b⟩

/-- `TokenKind` from lexer.rs (the full closed enumeration).
Rust names that are Lean keywords get a `Kw` suffix, as the Rust source
itself does for `SelfKw`. -/
inductive TokenKind where
  | openParen | closeParen | openBrace | closeBrace
  | comma | dot | minus | plus | slash | star | modulo
  | bang | bangEqual | equal | equalEqual
  | greater | greaterEqual | less | lessEqual | dotDot
  | identifier | string | int | real
  | structKw | fnKw | selfKw | varKw | constKw | returnKw
  | ifKw | elseKw | andKw | orKw | nullKw | printKw
  | forKw | whileKw | inKw | trueKw | falseKw
  | newLine | eof
deriving Repr, DecidableEq

/-- `Token \x7b kind, value, loc \x7d`; the `EcoString` value is a
`List Char`. -/
structure Token where
  kind : TokenKind
  value : List Char
  loc : Loc
deriving Repr, DecidableEq

/-- `LexerErr` from lexer.rs. -/
inductive LexerErr where
  | unexpectedToken (c : Char)
  | stringNeverClosed
  | noSpaceAfterNumber (c : Char)
  | nonNumericDecimal (c : Char)
deriving Repr, DecidableEq

/-- `PhyResult<T>`: an error value paired with its location.  Every
construction site in the frontend passes `Some(loc)`, so the `Option`
around the location is dropped. -/
structure PhyRes (E : Type) where
  err : E
  loc : Loc
deriving Repr, DecidableEq

/-- The keyword table built by `Lexer::generate_keywords` (exact,
case-sensitive, closed set). -/
def keywords : List (List Char × TokenKind) :=
  [ ("var".toList, .varKw), ("const".toList, .constKw),
    ("true".toList, .trueKw), ("false".toList, .falseKw),
    ("struct".toList, .structKw), ("self".toList, .selfKw),
    ("fn".toList, .fnKw), ("return".toList, .returnKw),
    ("if".toList, .ifKw), ("else".toList, .elseKw),
    ("and".toList, .andKw), ("or".toList, .orKw),
    ("for".toList, .forKw), ("while".toList, .whileKw),
    ("in".toList, .inKw), ("null".toList, .nullKw),
    ("print".toList, .printKw) ]

/-- `self.keywords.get(&ident)` (HashMap lookup over the closed table). -/
def keywordLookup (s : List Char) : Option TokenKind :=
  (keywords.find? (fun p => p.1 == s)).map (fun p => p.2)

/-- Rust slice `code[a..b]` of a character vector. -/
def slice (code : List Char) (a b : Nat) : List Char :=
  (code.drop a).take (b - a)

/-- The mutable state of `Lexer` (the keyword table is the fixed
`keywords` above; `code`, `tokens`, `start`, `current` are threaded). -/
structure LexState where
  code : List Char
  tokens : List Token
  start : Nat
  current : Nat
deriving Repr

/-- `Lexer::eof`. -/
def LexState.eofB (s : LexState) : Bool :=
  s.current ≥ s.code.length

/-- `Lexer::at`: current character, `'\0'` at end of input. -/
def LexState.peek (s : LexState) : Char :=
  s.code.getD s.current '\x00'

/-- `Lexer::next`: lookahead one character (Rust guards with
`current < code.len() - 1`). -/
def LexState.peekNext (s : LexState) : Char :=
  if s.current < s.code.length - 1 then s.code.getD (s.current + 1) '\x00'
  else '\x00'

/-- `Lexer::prev` (Rust unwraps; only called with `current ≥ 1`). -/
def LexState.prevC (s : LexState) : Char :=
  s.code.getD (s.current - 1) '\x00'

/-- `Lexer::is_skippable`. -/
def LexState.isSkippable (s : LexState) : Bool :=
  s.peek == ' ' || s.peek == '\t' || s.peek == '\r'

/-- `Lexer::eat`: advance and return the character just passed. -/
def LexState.eatC (s : LexState) : Char × LexState :=
  let s' : LexState := { s with current := s.current + 1 }
  (s'.prevC, s')

/-- `Lexer::is_at`: conditional one-character advance. -/
def LexState.isAtC (s : LexState) (expected : Char) : Bool × LexState :=
  if s.eofB then (false, s)
  else if s.peek != expected then (false, s)
  else (true, { s with current := s.current + 1 })

/-- `Lexer::get_loc`. -/
def LexState.getLoc (s : LexState) : Loc :=
  Loc.new s.start s.current

/-- `Lexer::add_token`: push a token whose text is the source slice
`code[start..current]`. -/
def LexState.addToken (s : LexState) (kind : TokenKind) : LexState :=
  { s with tokens :=
      s.tokens ++ [⟨kind, slice s.code s.start s.current, s.getLoc⟩] }

/-- `Lexer::add_value_token`: push a token with an explicit text. -/
def LexState.addValueToken (s : LexState) (kind : TokenKind)
    (value : List Char) : LexState :=
  { s with tokens := s.tokens ++ [⟨kind, value, s.getLoc⟩] }

/-- Body of the `while` loop in `Lexer::synchronize`: advance until
whitespace, newline or end of input. -/
def syncLoop (fuel : Nat) (s : LexState) : LexState :=
  match fuel with
  | 0 => s
  | fuel + 1 =>
    if !s.isSkippable && s.peek != '\n' && !s.eofB then
      syncLoop fuel { s with current := s.current + 1 }
    else s

/-- `Lexer::synchronize`: rewind to the start of the failed lexeme and
skip to the next whitespace boundary. -/
def LexState.synchronize (s : LexState) : LexState :=
  syncLoop (s.code.length + 1) { s with current := s.start }

/-- `Lexer::trigger_error`: synchronize, then build the error at the
post-synchronization location. -/
def LexState.triggerError (s : LexState) (e : LexerErr) :
    LexState × PhyRes LexerErr :=
  let s' := s.synchronize
  (s', ⟨e, s'.getLoc⟩)

/-- The loop of `Lexer::lex_comment`. -/
def commentLoop (fuel : Nat) (s : LexState) : LexState :=
  match fuel with
  | 0 => s
  | fuel + 1 =>
    if !s.eofB && s.peek != '\n' then
      commentLoop fuel (s.eatC).2
    else s

/-- `Lexer::lex_comment`. -/
def LexState.lexComment (s : LexState) : LexState :=
  commentLoop (s.code.length + 1) s

/-- The scanning loop of `Lexer::lex_string`: consume until the closing
quote or end of input, emitting a `NewLine` token for every embedded
newline. -/
def stringScan (fuel : Nat) (s : LexState) : LexState :=
  match fuel with
  | 0 => s
  | fuel + 1 =>
    if !s.eofB && s.peek != '\"' then
      if s.peek == '\n' then
        stringScan fuel (((s.eatC).2).addToken .newLine)
      else
        stringScan fuel (s.eatC).2
    else s

/-- `Lexer::lex_string`.  The Rust `Err` return leaves the synchronized
`self` behind, so the state is returned in both cases. -/
def LexState.lexString (s : LexState) : LexState × Option (PhyRes LexerErr) :=
  let s₁ := stringScan (s.code.length + 1) s
  if s₁.eofB then
    let (s₂, e) := s₁.triggerError .stringNeverClosed
    (s₂, some e)
  else
    let value := slice s₁.code (s₁.start + 1) s₁.current
    let s₂ := (s₁.eatC).2
    (s₂.addValueToken .string value, none)

/-- The digit-accumulation loop of `Lexer::lex_number`. -/
def digitScan (fuel : Nat) (s : LexState) : LexState :=
  match fuel with
  | 0 => s
  | fuel + 1 =>
    if s.peek.isDigit then
      digitScan fuel (s.eatC).2
    else s

/-- `Lexer::lex_number`. -/
def LexState.lexNumber (s : LexState) : LexState × Option (PhyRes LexerErr) :=
  let s₁ := digitScan (s.code.length + 1) s
  if s₁.peek == '.' then
    if s₁.peekNext == '.' then
      let s₂ := s₁.addToken .int
      let s₃ := (((s₂.eatC).2).eatC).2
      (s₃.addToken .dotDot, none)
    else
      let s₂ := (s₁.eatC).2
      if s₂.eofB || s₂.isSkippable || s₂.peek == '\n' then
        (s₂.addToken .real, none)
      else if !s₂.peek.isDigit then
        let (s₃, e) := s₂.triggerError (.nonNumericDecimal s₂.peek)
        (s₃, some e)
      else
        let s₃ := digitScan (s₂.code.length + 1) s₂
        if !s₃.eofB && !s₃.isSkippable && s₃.peek != '\n' then
          let (s₄, e) := s₃.triggerError (.noSpaceAfterNumber s₃.peek)
          (s₄, some e)
        else
          (s₃.addToken .real, none)
  else
    (s₁.addToken .int, none)

/-- The identifier-accumulation loop of `Lexer::lex_identifier`. -/
def identScan (fuel : Nat) (s : LexState) : LexState :=
  match fuel with
  | 0 => s
  | fuel + 1 =>
    if s.peek.isAlphanum || s.peek == '_' then
      identScan fuel (s.eatC).2
    else s

/-- `Lexer::lex_identifier` (it never fails; the Rust `Result` is
always `Ok`). -/
def LexState.lexIdentifier (s : LexState) : LexState :=
  let s₁ := identScan (s.code.length + 1) s
  let ident := slice s₁.code s₁.start s₁.current
  match keywordLookup ident with
  | some k => s₁.addToken k
  | none => s₁.addValueToken .identifier ident

/-- One iteration of the `tokenize` scanning loop: set `start`, eat one
character and dispatch on it, possibly collecting one error. -/
def lexStep (s : LexState) : LexState × Option (PhyRes LexerErr) :=
  let s₀ : LexState := { s with start := s.current }
  let (c, s₁) := s₀.eatC
  match c with
  | '\r' | '\t' | ' ' => (s₁, none)
  | '\n' => (s₁.addToken .newLine, none)
  | '(' => (s₁.addToken .openParen, none)
  | ')' => (s₁.addToken .closeParen, none)
  | '{' => (s₁.addToken .openBrace, none)
  | '}' => (s₁.addToken .closeBrace, none)
  | ',' => (s₁.addToken .comma, none)
  | '.' =>
    let (b, s₂) := s₁.isAtC '.'
    if b then (s₂.addToken .dotDot, none) else (s₂.addToken .dot, none)
  | '-' => (s₁.addToken .minus, none)
  | '+' => (s₁.addToken .plus, none)
  | '*' => (s₁.addToken .star, none)
  | '%' => (s₁.addToken .modulo, none)
  | '!' =>
    let (b, s₂) := s₁.isAtC '='
    if b then (s₂.addToken .bangEqual, none) else (s₂.addToken .bang, none)
  | '=' =>
    let (b, s₂) := s₁.isAtC '='
    if b then (s₂.addToken .equalEqual, none) else (s₂.addToken .equal, none)
  | '<' =>
    let (b, s₂) := s₁.isAtC '='
    if b then (s₂.addToken .lessEqual, none) else (s₂.addToken .less, none)
  | '>' =>
    let (b, s₂) := s₁.isAtC '='
    if b then (s₂.addToken .greaterEqual, none) else (s₂.addToken .greater, none)
  | '/' =>
    let (b, s₂) := s₁.isAtC '/'
    if b then (s₂.lexComment, none) else (s₂.addToken .slash, none)
  | '\"' => s₁.lexString
  | _ =>
    if c.isDigit then s₁.lexNumber
    else if c.isAlpha then (s₁.lexIdentifier, none)
    else
      let (s₂, e) := s₁.triggerError (.unexpectedToken c)
      (s₂, some e)

/-- The scanning loop of `Lexer::tokenize`, accumulating the error
list. -/
def tokenizeLoop (fuel : Nat) (s : LexState)
    (errs : List (PhyRes LexerErr)) : LexState × List (PhyRes LexerErr) :=
  match fuel with
  | 0 => (s, errs)
  | fuel + 1 =>
    if s.eofB then (s, errs)
    else
      let (s', e) := lexStep s
      tokenizeLoop fuel s' (errs ++ e.toList)

/-- The synthetic `Eof` token appended by `tokenize`, located one past
the final character. -/
def eofToken (code : List Char) : Token :=
  ⟨.eof, "eof".toList, Loc.new code.length (code.length + 1)⟩

/-- The full scanning pass: loop over the source, then append the
`Eof` token.  Returns the final state and the collected errors. -/
def tokenizeRun (code : List Char) : LexState × List (PhyRes LexerErr) :=
  let s₀ : LexState := ⟨code, [], 0, 0⟩
  let (s₁, errs) := tokenizeLoop (code.length + 1) s₀ []
  ({ s₁ with tokens := s₁.tokens ++ [eofToken code] }, errs)

/-- `Lexer::tokenize`: token list if no error was collected, otherwise
the error list. -/
def tokenize (code : List Char) :
    Except (List (PhyRes LexerErr)) (List Token) :=
  let (s, errs) := tokenizeRun code
  if errs.isEmpty then .ok s.tokens else .error errs

end Raze

namespace Raze

/-- Rust `"…".parse::<i64>()`: optional sign, decimal digits, value
within the i64 range. -/
def parseI64 (s : List Char) : Option Int :=
  match s with
  | [] => none
  | c :: rest =>
    let digits := if c == '+' || c == '-' then rest else s
    let sign : Int := if c == '-' then -1 else 1
    if !digits.isEmpty && digits.all Char.isDigit then
      let n : Nat := digits.foldl (fun a d => a * 10 + (d.toNat - '0'.toNat)) 0
      let v : Int := sign * (n : Int)
      if -(2 ^ 63) ≤ v ∧ v ≤ 2 ^ 63 - 1 then some v else none
    else none

/-- Helper for `realOk`: `inf` / `infinity` / `nan`, case insensitive. -/
def isInfNan (t : List Char) : Bool :=
  let l := t.map Char.toLower
  l == "inf".toList || l == "infinity".toList || l == "nan".toList

/-- Helper for `realOk`: `Digit+ | Digit+ '.' Digit* | Digit* '.' Digit+`. -/
def mantissaOk (m : List Char) : Bool :=
  (m.count '.') ≤ 1 && m.all (fun c => c.isDigit || c == '.')
    && m.any Char.isDigit

/-- Helper for `realOk`: exponent part after `e`/`E`. -/
def expPartOk (e : List Char) : Bool :=
  match e with
  | [] => false
  | c :: rest =>
    let d := if c == '+' || c == '-' then rest else e
    !d.isEmpty && d.all Char.isDigit

/-- Acceptance of Rust `"…".parse::<f64>()` (the parsed floating value
itself is not embedded; `RealLiteral` keeps the token text). -/
def realOk (s : List Char) : Bool :=
  match s with
  | [] => false
  | c :: rest =>
    let t := if c == '+' || c == '-' then rest else s
    if isInfNan t then true
    else
      let m := t.takeWhile (fun c => c != 'e' && c != 'E')
      let r := t.dropWhile (fun c => c != 'e' && c != 'E')
      match r with
      | [] => mantissaOk m
      | _ :: ex => mantissaOk m && expPartOk ex

/-- `Expr` from expr.rs.  `RealLiteral` holds the token text in place
of the Rust `f64` parsed from that same text (floating-point values are
not otherwise inspected by the frontend). -/
inductive Expr where
  | binary (left : Expr) (operator : List Char) (right : Expr) (loc : Loc)
  | grouping (expr : Expr) (loc : Loc)
  | intLiteral (value : Int) (loc : Loc)
  | realLiteral (value : List Char) (loc : Loc)
  | strLiteral (value : List Char) (loc : Loc)
  | identifier (name : List Char) (loc : Loc)
  | unary (operator : List Char) (right : Expr) (loc : Loc)
  | assign (name : List Char) (value : Expr) (loc : Loc)
deriving Repr, DecidableEq

/-- Modelled from the spec: the statement node variants (`stmt.rs` is
not under `src/`): expression statement, `print`, block, and variable
declaration, with exactly the fields the construction sites in
parser.rs populate. -/
inductive Stmt where
  | expr (e : Expr) (loc : Loc)
  | print (e : Expr) (loc : Loc)
  | block (stmts : List Stmt) (loc : Loc)
  | varDecl (name : List Char) (value : Option Expr) (loc : Loc)
deriving Repr

/-- `ParserErr` from parser.rs (the misspelt `UnexpextedToken` is kept;
its two fields are the `format!("\x7b:?\x7d", …)` renderings of the
expected and found kinds). -/
inductive ParserErr where
  | unexpectedEol
  | missingLhsInBinop
  | unknownToken (s : List Char)
  | parsingInt
  | parsingReal
  | parenNeverClosed
  | varDeclNoName
  | incorrectVarDeclVal (s : List Char)
  | wrongRhsVarDecl
  | noExprAssign
  | invalidAssignTarget
  | unclosedBlock
  | unexpectedEof
  | unexpextedToken (expected found : List Char)
deriving Repr, DecidableEq

/-- Rust `format!("\x7b:?\x7d", kind)` for a token kind. -/
def kindDebug : TokenKind → List Char
  | .openParen => "OpenParen".toList
  | .closeParen => "CloseParen".toList
  | .openBrace => "OpenBrace".toList
  | .closeBrace => "CloseBrace".toList
  | .comma => "Comma".toList
  | .dot => "Dot".toList
  | .minus => "Minus".toList
  | .plus => "Plus".toList
  | .slash => "Slash".toList
  | .star => "Star".toList
  | .modulo => "Modulo".toList
  | .bang => "Bang".toList
  | .bangEqual => "BangEqual".toList
  | .equal => "Equal".toList
  | .equalEqual => "EqualEqual".toList
  | .greater => "Greater".toList
  | .greaterEqual => "GreaterEqual".toList
  | .less => "Less".toList
  | .lessEqual => "LessEqual".toList
  | .dotDot => "DotDot".toList
  | .identifier => "Identifier".toList
  | .string => "String".toList
  | .int => "Int".toList
  | .real => "Real".toList
  | .structKw => "Struct".toList
  | .fnKw => "Fn".toList
  | .selfKw => "SelfKw".toList
  | .varKw => "Var".toList
  | .constKw => "Const".toList
  | .returnKw => "Return".toList
  | .ifKw => "If".toList
  | .elseKw => "Else".toList
  | .andKw => "And".toList
  | .orKw => "Or".toList
  | .nullKw => "Null".toList
  | .printKw => "Print".toList
  | .forKw => "For".toList
  | .whileKw => "While".toList
  | .inKw => "In".toList
  | .trueKw => "True".toList
  | .falseKw => "False".toList
  | .newLine => "NewLine".toList
  | .eof => "Eof".toList

/-- The `thiserror` `Display` rendering of a `ParserErr`
(`e.to_string()`), used by `IncorrectVarDeclVal`. -/
def errMsg : ParserErr → List Char
  | .unexpectedEol => "unexpected end of line".toList
  | .missingLhsInBinop => "missing left hand side of binary expression".toList
  | .unknownToken s => "unknown token to parse: '".toList ++ s ++ "'".toList
  | .parsingInt => "error parsing int".toList
  | .parsingReal => "error parsing real".toList
  | .parenNeverClosed => "parenthesis group is never closed".toList
  | .varDeclNoName =>
      "missing variable name after 'var' keyword in declaration".toList
  | .incorrectVarDeclVal s =>
      "value assigned during declaration is incorrect: ".toList ++ s
  | .wrongRhsVarDecl =>
      "expected an assignment or nothing in variable declaration".toList
  | .noExprAssign => "expected expression for variable assignment".toList
  | .invalidAssignTarget => "invalid assignment target".toList
  | .unclosedBlock => "expected '\x7d' after block statement".toList
  | .unexpectedEof => "unexpected end of file".toList
  | .unexpextedToken a b =>
      "expected token type '".toList ++ a ++ "', found: ".toList ++ b

/-- The mutable state of `Parser`: the borrowed token slice plus the
`start_loc` / `current` cursors. -/
structure PState where
  tokens : List Token
  startLoc : Nat
  current : Nat
deriving Repr, DecidableEq

/-- Stand-in for the unchecked `unwrap()` in `Parser::at`/`prev`.  It
is only ever produced by an out-of-bounds access, which never happens
on token lists terminated by `Eof` (claim C9). -/
def defaultToken : Token := ⟨.eof, "eof".toList, Loc.new 0 0⟩

/-- `Parser::at`. -/
def PState.peek (s : PState) : Token :=
  s.tokens.getD s.current defaultToken

/-- `Parser::prev`. -/
def PState.prevTok (s : PState) : Token :=
  s.tokens.getD (s.current - 1) defaultToken

/-- `Parser::is_at` (non-consuming, unlike the lexer's). -/
def PState.isAtK (s : PState) (k : TokenKind) : Bool :=
  s.peek.kind == k

/-- `Parser::eof`. -/
def PState.eofB (s : PState) : Bool :=
  s.isAtK .eof

/-- `Parser::get_loc`. -/
def PState.getLoc (s : PState) : Loc :=
  Loc.new s.startLoc s.peek.loc.start

/-- Outcome of one parser routine: Rust mutates `self` in place, so the
state is carried in the error case as well. -/
inductive PResult (α : Type) where
  | ok (a : α) (s : PState)
  | err (e : PhyRes ParserErr) (s : PState)
deriving Repr

/-- `Parser::eat`. -/
def PState.eat (s : PState) : PResult Token :=
  if s.eofB then .err ⟨.unexpectedEof, s.getLoc⟩ s
  else
    let s' : PState := { s with current := s.current + 1 }
    .ok s'.prevTok s'

/-- `Parser::expect`. -/
def PState.expect (s : PState) (kind : TokenKind) : PResult Token :=
  match s.eat with
  | .err e s' => .err e s'
  | .ok tk s' =>
    if tk.kind == kind then .ok s'.prevTok s'
    else .err ⟨.unexpextedToken (kindDebug kind) (kindDebug tk.kind),
               s'.getLoc⟩ s'

/-- The loop of `Parser::skip_new_lines`. -/
def skipNLLoop (fuel : Nat) (s : PState) : PState :=
  match fuel with
  | 0 => s
  | fuel + 1 =>
    if !s.eofB && s.isAtK .newLine then
      skipNLLoop fuel { s with current := s.current + 1 }
    else s

/-- `Parser::skip_new_lines` (also re-anchors `start_loc`). -/
def PState.skipNewLines (s : PState) : PState :=
  let s₁ := skipNLLoop (s.tokens.length + 1) s
  { s₁ with startLoc := s₁.peek.loc.start }

/-- The loop of `Parser::synchronize`: skip tokens until the next
`NewLine` or `Eof`. -/
def syncPLoop (fuel : Nat) (s : PState) : PState :=
  match fuel with
  | 0 => s
  | fuel + 1 =>
    if !s.eofB && !(s.peek.kind == .newLine) then
      syncPLoop fuel { s with current := s.current + 1 }
    else s

/-- `Parser::synchronize` (panic mode; a just-consumed `NewLine` means
the parser is already synchronized). -/
def PState.synchronize (s : PState) : PState :=
  if s.prevTok.kind == .newLine then s
  else syncPLoop (s.tokens.length + 1) s

/-- `Parser::trigger_error`. -/
def PState.triggerError (s : PState) (e : ParserErr) (synchro : Bool) :
    PhyRes ParserErr × PState :=
  let s' := if synchro then s.synchronize else s
  (⟨e, s'.getLoc⟩, s')

/-- `Parser::parse_int_literal` (reads the just-eaten token). -/
def parseIntLit (s : PState) : PResult Expr :=
  match parseI64 s.prevTok.value with
  | some v => .ok (.intLiteral v s.getLoc) s
  | none => .err ⟨.parsingInt, s.getLoc⟩ s

/-- `Parser::parse_real_literal`. -/
def parseRealLit (s : PState) : PResult Expr :=
  if realOk s.prevTok.value then .ok (.realLiteral s.prevTok.value s.getLoc) s
  else .err ⟨.parsingReal, s.getLoc⟩ s

/-- `Parser::parse_str_literal`. -/
def parseStrLit (s : PState) : PResult Expr :=
  .ok (.strLiteral s.prevTok.value s.getLoc) s

/-- Operator sets of the four left-associative binary levels, in the
order the Rust `is_at` conditions test them: 0 = equality,
1 = comparison, 2 = term, 3 = factor. -/
def levelKinds : Nat → List TokenKind
  | 0 => [.equalEqual, .bangEqual]
  | 1 => [.less, .lessEqual, .greater, .greaterEqual]
  | 2 => [.minus, .plus]
  | 3 => [.star, .slash, .modulo]
  | _ => []

end Raze

namespace Raze

mutual

/-- `Parser::parse_expr`. -/
def parseExprF : Nat → PState → Option (PResult Expr)
  | 0, _ => none
  | fuel + 1, s => parseAssignF fuel s

/-- `Parser::parse_assign` (right-associative; the candidate target
must turn out to be an `Identifier` node). -/
def parseAssignF : Nat → PState → Option (PResult Expr)
  | 0, _ => none
  | fuel + 1, s =>
    match parseBinF fuel 0 s with
    | none => none
    | some (.err e s₁) => some (.err e s₁)
    | some (.ok assigne s₁) =>
      if s₁.isAtK .equal then
        match s₁.eat with
        | .err e s₂ => some (.err e s₂)
        | .ok _ s₂ =>
          match parseAssignF fuel s₂ with
          | none => none
          | some (.err e s₃) => some (.err e s₃)
          | some (.ok value s₃) =>
            match assigne with
            | .identifier nm _ =>
              some (.ok (.assign nm value s₃.getLoc) s₃)
            | _ =>
              let (e, s₄) := s₃.triggerError .invalidAssignTarget true
              some (.err e s₄)
      else some (.ok assigne s₁)

/-- Dispatch to the operand parser one precedence level up:
`parse_comparison` / `parse_term` / `parse_factor` / `parse_unary`. -/
def parseChildF : Nat → Nat → PState → Option (PResult Expr)
  | 0, _, _ => none
  | fuel + 1, lvl, s =>
    match lvl with
    | 0 => parseBinF fuel 1 s
    | 1 => parseBinF fuel 2 s
    | 2 => parseBinF fuel 3 s
    | _ => parseUnaryF fuel s

/-- Common shape of `parse_equality` / `parse_comparison` /
`parse_term` / `parse_factor`: parse one operand of the next level,
then fold the level's operators left-associatively. -/
def parseBinF : Nat → Nat → PState → Option (PResult Expr)
  | 0, _, _ => none
  | fuel + 1, lvl, s =>
    match parseChildF fuel lvl s with
    | none => none
    | some (.err e s₁) => some (.err e s₁)
    | some (.ok e s₁) => parseBinLoopF fuel lvl e s₁

/-- The `while is_at(op)` folding loop of one binary level. -/
def parseBinLoopF : Nat → Nat → Expr → PState → Option (PResult Expr)
  | 0, _, _, _ => none
  | fuel + 1, lvl, acc, s =>
    if (levelKinds lvl).any (fun k => s.isAtK k) then
      match s.eat with
      | .err e s₁ => some (.err e s₁)
      | .ok tk s₁ =>
        match parseChildF fuel lvl s₁ with
        | none => none
        | some (.err e s₂) => some (.err e s₂)
        | some (.ok right s₂) =>
          parseBinLoopF fuel lvl (.binary acc tk.value right s₂.getLoc) s₂
    else some (.ok acc s)

/-- `Parser::parse_unary`: `!` or `-` wraps the following primary. -/
def parseUnaryF : Nat → PState → Option (PResult Expr)
  | 0, _ => none
  | fuel + 1, s =>
    if s.isAtK .bang || s.isAtK .minus then
      match s.eat with
      | .err e s₁ => some (.err e s₁)
      | .ok tk s₁ =>
        match parsePrimaryF fuel s₁ with
        | none => none
        | some (.err e s₂) => some (.err e s₂)
        | some (.ok right s₂) =>
          some (.ok (.unary tk.value right s₂.getLoc) s₂)
    else parsePrimaryF fuel s

/-- `Parser::parse_primary`. -/
def parsePrimaryF : Nat → PState → Option (PResult Expr)
  | 0, _ => none
  | fuel + 1, s =>
    match s.eat with
    | .err e s₁ => some (.err e s₁)
    | .ok tk s₁ =>
      match tk.kind with
      | .identifier | .trueKw | .falseKw | .nullKw =>
        some (.ok (.identifier s₁.prevTok.value s₁.getLoc) s₁)
      | .int => some (parseIntLit s₁)
      | .real => some (parseRealLit s₁)
      | .string => some (parseStrLit s₁)
      | .openParen => parseGroupingF fuel s₁
      | .newLine =>
        let (e, s₂) := s₁.triggerError .unexpectedEol false
        some (.err e s₂)
      | .star | .plus | .slash | .modulo =>
        let (e, s₂) := s₁.triggerError .missingLhsInBinop true
        some (.err e s₂)
      | _ =>
        let (e, s₂) := s₁.triggerError (.unknownToken s₁.prevTok.value) true
        some (.err e s₂)

/-- `Parser::parse_grouping` (entered after the `(` was eaten); an
unexpected end of line/file inside the group is remapped to
`ParenNeverClosed`, without panic-mode synchronization. -/
def parseGroupingF : Nat → PState → Option (PResult Expr)
  | 0, _ => none
  | fuel + 1, s =>
    match parseExprF fuel s with
    | none => none
    | some (.err e s₁) =>
      match e.err with
      | .unexpectedEof | .unexpectedEol =>
        some (.err ⟨.parenNeverClosed, s₁.getLoc⟩ s₁)
      | _ => some (.err e s₁)
    | some (.ok ex s₁) =>
      match s₁.expect .closeParen with
      | .err _ s₂ => some (.err ⟨.parenNeverClosed, s₂.getLoc⟩ s₂)
      | .ok _ s₂ => some (.ok (.grouping ex s₂.getLoc) s₂)

/-- `Parser::parse_declarations`. -/
def parseDeclF : Nat → PState → Option (PResult Stmt)
  | 0, _ => none
  | fuel + 1, s =>
    match s.peek.kind with
    | .varKw => parseVarDeclF fuel s
    | _ => parseStmtF fuel s

/-- `Parser::parse_var_declaration`. -/
def parseVarDeclF : Nat → PState → Option (PResult Stmt)
  | 0, _ => none
  | fuel + 1, s =>
    match s.expect .varKw with
    | .err e s₁ => some (.err e s₁)
    | .ok _ s₁ =>
      match s₁.expect .identifier with
      | .err _ s₂ =>
        let (e, s₃) := s₂.triggerError .varDeclNoName true
        some (.err e s₃)
      | .ok nameTok s₂ =>
        match s₂.peek.kind with
        | .equal =>
          match s₂.eat with
          | .err e s₃ => some (.err e s₃)
          | .ok _ s₃ =>
            match parseExprF fuel s₃ with
            | none => none
            | some (.ok v s₄) =>
              some (.ok (.varDecl nameTok.value (some v) s₄.getLoc) s₄)
            | some (.err e s₄) =>
              match e.err with
              | .unexpectedEol | .unexpectedEof =>
                let (e', s₅) := s₄.triggerError .noExprAssign true
                some (.err e' s₅)
              | inner =>
                let (e', s₅) :=
                  s₄.triggerError (.incorrectVarDeclVal (errMsg inner)) true
                some (.err e' s₅)
        | .newLine | .eof =>
          some (.ok (.varDecl nameTok.value none s₂.getLoc) s₂)
        | _ =>
          let (e, s₃) := s₂.triggerError .wrongRhsVarDecl true
          some (.err e s₃)

/-- `Parser::parse_stmt`. -/
def parseStmtF : Nat → PState → Option (PResult Stmt)
  | 0, _ => none
  | fuel + 1, s =>
    match s.peek.kind with
    | .printKw => parsePrintF fuel s
    | .openBrace => parseBlockF fuel s
    | _ => parseExprStmtF fuel s

/-- `Parser::parse_print_stmt`. -/
def parsePrintF : Nat → PState → Option (PResult Stmt)
  | 0, _ => none
  | fuel + 1, s =>
    match s.expect .printKw with
    | .err e s₁ => some (.err e s₁)
    | .ok _ s₁ =>
      match parseExprF fuel s₁ with
      | none => none
      | some (.err e s₂) => some (.err e s₂)
      | some (.ok ex s₂) => some (.ok (.print ex s₂.getLoc) s₂)

/-- `Parser::parse_block_stmt`. -/
def parseBlockF : Nat → PState → Option (PResult Stmt)
  | 0, _ => none
  | fuel + 1, s =>
    match s.expect .openBrace with
    | .err e s₁ => some (.err e s₁)
    | .ok _ s₁ =>
      match parseBlockLoopF fuel s₁.skipNewLines [] with
      | none => none
      | some (.err e s₂) => some (.err e s₂)
      | some (.ok stmts s₂) =>
        match s₂.expect .closeBrace with
        | .err _ s₃ =>
          let (e, s₄) := s₃.triggerError .unclosedBlock true
          some (.err e s₄)
        | .ok _ s₃ => some (.ok (.block stmts s₃.getLoc) s₃)

/-- The statement loop of `parse_block_stmt` (tolerating blank lines
between statements). -/
def parseBlockLoopF : Nat → PState → List Stmt → Option (PResult (List Stmt))
  | 0, _, _ => none
  | fuel + 1, s, acc =>
    if !(s.isAtK .closeBrace) && !s.eofB then
      match parseDeclF fuel s with
      | none => none
      | some (.err e s₁) => some (.err e s₁)
      | some (.ok st s₁) =>
        parseBlockLoopF fuel s₁.skipNewLines (acc ++ [st])
    else some (.ok acc s)

/-- `Parser::parse_expr_stmt`. -/
def parseExprStmtF : Nat → PState → Option (PResult Stmt)
  | 0, _ => none
  | fuel + 1, s =>
    match parseExprF fuel s with
    | none => none
    | some (.err e s₁) => some (.err e s₁)
    | some (.ok ex s₁) => some (.ok (.expr ex s₁.getLoc) s₁)

end

/-- The top-level loop of `Parser::parse`: skip leading newlines, parse
one declaration per iteration, record failures and keep going. -/
def parseLoopF : Nat → PState → List Stmt → List (PhyRes ParserErr) →
    Option (List Stmt × List (PhyRes ParserErr))
  | 0, _, _, _ => none
  | fuel + 1, s, stmts, errs =>
    if s.eofB then some (stmts, errs)
    else
      let s₁ := s.skipNewLines
      if s₁.eofB then some (stmts, errs)
      else
        match parseDeclF fuel s₁ with
        | none => none
        | some (.ok st s₂) => parseLoopF fuel s₂ (stmts ++ [st]) errs
        | some (.err e s₂) => parseLoopF fuel s₂ stmts (errs ++ [e])

/-- Fuel passed to the embedded parser; it dominates the recursion
depth of any run over the given token list. -/
def parserFuel (tokens : List Token) : Nat :=
  20 * tokens.length + 20

/-- The top-level run of `Parser::parse`: the statements and errors
collected by the loop (`none` only on fuel exhaustion, which the fuel
bound prevents for terminating runs). -/
def parseRun (tokens : List Token) :
    Option (List Stmt × List (PhyRes ParserErr)) :=
  parseLoopF (parserFuel tokens) ⟨tokens, 0, 0⟩ [] []

/-- `Parser::parse`: the full error list if any error was collected,
otherwise the full statement list. -/
def parse (tokens : List Token) :
    Option (Except (List (PhyRes ParserErr)) (List Stmt)) :=
  match parseRun tokens with
  | none => none
  | some (stmts, errs) =>
    some (if errs.isEmpty then .ok stmts else .error errs)

/-- Composition of the two passes, as the repository's tests drive
them (`lex_and_parse`): `none` when lexing already failed or the
parser fuel ran out. -/
def lexParse (code : List Char) :
    Option (Except (List (PhyRes ParserErr)) (List Stmt)) :=
  match tokenize code with
  | .error _ => none
  | .ok ts => parse ts

end Raze

namespace Raze

/-- The state carried out of a parser routine (Rust's `self` after the
call, whether it returned `Ok` or `Err`). -/
def PResult.state {α : Type} : PResult α → PState
  | .ok _ s => s
  | .err _ s => s

/-- Index of the first `Eof` token (the length of the list when there
is none). -/
def eofIdx (ts : List Token) : Nat :=
  ts.findIdx (fun t => t.kind == .eof)

/-- Characters at which the lexer's error synchronization stops:
whitespace or newline (`is_skippable` or `'\n'`). -/
def isWsNl (c : Char) : Bool :=
  c == ' ' || c == '\t' || c == '\r' || c == '\n'

/-- The character class of identifier continuation: alphanumeric or
underscore. -/
def isAlnumU (c : Char) : Bool :=
  c.isAlphanum || c == '_'

/-- The text/location contract of a produced token (amended claim C7):
ordinary tokens carry the source slice at their own `loc`; string
tokens carry that slice minus its first and last characters (the
quotes); the synthetic `Eof` token carries the fixed text `eof`. -/
def tokenTextSpecB (code : List Char) (t : Token) : Bool :=
  match t.kind with
  | .string => t.value == slice code (t.loc.start + 1) (t.loc.stop - 1)
  | .eof => t.value == "eof".toList
  | _ => t.value == slice code t.loc.start t.loc.stop

/-- A left-leaning chain of `Binary` nodes over a seed operand
(claim C2): each step attaches one operator text, right operand and
location on top of the accumulated left spine. -/
def leftChain (e : Expr) (ps : List (List Char × Expr × Loc)) : Expr :=
  ps.foldl (fun acc p => .binary acc p.1 p.2.1 p.2.2) e

/-- The `NewLine` tokens `lex_string` emits for the embedded newlines
at positions in `[a, b)` of the source, in position order (claim C10).
Each one is produced by `add_token` right after the newline was eaten,
so its text/loc span runs from the opening quote at `start` through
that newline. -/
def nlTokensIn (code : List Char) (start a b : Nat) : List Token :=
  ((List.range' a (b - a)).filter (fun i => code.getD i '\x00' == '\n')).map
    (fun i => ⟨.newLine, slice code start (i + 1), Loc.new start (i + 1)⟩)

end Raze

namespace Raze

/-- Cursor/token preservation contract for one parser routine
(claim C9): the borrowed token buffer is untouched, and a cursor that
was at or before the first `Eof` stays at or before it. -/
def presv (s r : PState) : Prop :=
  r.tokens = s.tokens ∧
    (s.current ≤ eofIdx s.tokens → r.current ≤ eofIdx s.tokens)

/-- Token-production contract of one lexer routine (amended claim C7):
the source is untouched and every newly pushed token satisfies the
text/location contract `tokenTextSpecB`. -/
def lexExt (s s' : LexState) : Prop :=
  s'.code = s.code ∧ ∃ Δ, s'.tokens = s.tokens ++ Δ ∧
    ∀ t ∈ Δ, tokenTextSpecB s.code t = true

end Raze

namespace Raze

theorem digitScan_frame (fuel : Nat) :
    ∀ s, (digitScan fuel s).code = s.code ∧
      (digitScan fuel s).tokens = s.tokens ∧
      (digitScan fuel s).start = s.start := by
  induction fuel with
  | zero => intro s; rw [digitScan]; exact ⟨rfl, rfl, rfl⟩
  | succ f ih =>
    intro s
    rw [digitScan]
    by_cases hc : s.peek.isDigit = true
    · rw [if_pos hc]; exact ih _
    · rw [if_neg hc]; exact ⟨rfl, rfl, rfl⟩

set_option maxHeartbeats 2000000 in
/-- C4: numeric-literal scanning follows the case analysis on the
character after the digits, for every lexer state entering
`lex_number`: a `.` followed by a second `.` finalizes the digits as
`Int` and the dots as `DotDot` (so `2..5` lexes to `Int, DotDot, Int`
with no whitespace); a `.` followed by end-of-input, whitespace or a
newline finalizes as `Real` with trailing dot (`25.`, `25. `,
`25.\n`); digits after the `.` followed by anything else yield
`NoSpaceAfterNumber` with the offending character (`12.5.`); a
non-digit, non-whitespace, non-newline character right after the `.`
yields `NonNumericDecimal` with the offending character (`12.a`). -/
theorem claim_C4_number_scanning :
    (tokenize "2..5".toList =
      .ok [⟨.int, "2".toList, ⟨0, 1⟩⟩, ⟨.dotDot, "2..".toList, ⟨0, 3⟩⟩,
           ⟨.int, "5".toList, ⟨3, 4⟩⟩, ⟨.eof, "eof".toList, ⟨4, 5⟩⟩]) ∧
    (tokenize "25.".toList =
      .ok [⟨.real, "25.".toList, ⟨0, 3⟩⟩, ⟨.eof, "eof".toList, ⟨3, 4⟩⟩]) ∧
    (tokenize "25. ".toList =
      .ok [⟨.real, "25.".toList, ⟨0, 3⟩⟩, ⟨.eof, "eof".toList, ⟨4, 5⟩⟩]) ∧
    (tokenize "25.\n".toList =
      .ok [⟨.real, "25.".toList, ⟨0, 3⟩⟩, ⟨.newLine, "\n".toList, ⟨3, 4⟩⟩,
           ⟨.eof, "eof".toList, ⟨4, 5⟩⟩]) ∧
    (tokenize "12.5.".toList =
      .error [⟨.noSpaceAfterNumber '.', ⟨0, 5⟩⟩]) ∧
    (tokenize "12.a".toList =
      .error [⟨.nonNumericDecimal 'a', ⟨0, 4⟩⟩]) ∧
    (∀ s s₁ : LexState, s₁ = digitScan (s.code.length + 1) s →
      s₁.peek = '.' → s₁.peekNext = '.' →
      ∃ r, s.lexNumber = (r, none) ∧ r.code = s.code ∧
        r.tokens = s.tokens ++
          [⟨.int, slice s.code s.start s₁.current,
            Loc.new s.start s₁.current⟩,
           ⟨.dotDot, slice s.code s.start (s₁.current + 2),
            Loc.new s.start (s₁.current + 2)⟩]) ∧
    (∀ s s₁ s₂ : LexState, s₁ = digitScan (s.code.length + 1) s →
      s₂ = (s₁.eatC).2 → s₁.peek = '.' → s₁.peekNext ≠ '.' →
      (s₂.eofB || s₂.isSkippable || s₂.peek == '\n') = true →
      ∃ r, s.lexNumber = (r, none) ∧ r.code = s.code ∧
        r.tokens = s.tokens ++
          [⟨.real, slice s.code s.start (s₁.current + 1),
            Loc.new s.start (s₁.current + 1)⟩]) ∧
    (∀ s s₁ s₂ : LexState, s₁ = digitScan (s.code.length + 1) s →
      s₂ = (s₁.eatC).2 → s₁.peek = '.' → s₁.peekNext ≠ '.' →
      (s₂.eofB || s₂.isSkippable || s₂.peek == '\n') = false →
      s₂.peek.isDigit = false →
      ∃ s₃ loc, s.lexNumber =
        (s₃, some ⟨.nonNumericDecimal s₂.peek, loc⟩)) ∧
    (∀ s s₁ s₂ s₃ : LexState, s₁ = digitScan (s.code.length + 1) s →
      s₂ = (s₁.eatC).2 → s₃ = digitScan (s₂.code.length + 1) s₂ →
      s₁.peek = '.' → s₁.peekNext ≠ '.' →
      (s₂.eofB || s₂.isSkippable || s₂.peek == '\n') = false →
      s₂.peek.isDigit = true →
      (!s₃.eofB && !s₃.isSkippable && s₃.peek != '\n') = true →
      ∃ s₄ loc, s.lexNumber =
        (s₄, some ⟨.noSpaceAfterNumber s₃.peek, loc⟩)) := by
  refine ⟨rfl, rfl, rfl, rfl, rfl, rfl, ?_, ?_, ?_, ?_⟩
  · intro s s₁ h₁ hp hpn
    subst h₁
    obtain ⟨hc, ht, hs⟩ := digitScan_frame (s.code.length + 1) s
    have hpb : ((digitScan (s.code.length + 1) s).peek == '.') = true := by
      simp [hp]
    have hpnb : ((digitScan (s.code.length + 1) s).peekNext == '.')
        = true := by simp [hpn]
    refine ⟨((((digitScan (s.code.length + 1) s).addToken
        .int).eatC).2.eatC).2.addToken .dotDot, ?_, ?_, ?_⟩
    · simp only [LexState.lexNumber]
      rw [if_pos hpb, if_pos hpnb]
    · simp [LexState.addToken, LexState.eatC, hc]
    · simp [LexState.addToken, LexState.eatC, LexState.getLoc, hc, ht, hs]
  · intro s s₁ s₂ h₁ h₂ hp hpn hg
    subst h₁
    subst h₂
    obtain ⟨hc, ht, hs⟩ := digitScan_frame (s.code.length + 1) s
    have hpb : ((digitScan (s.code.length + 1) s).peek == '.') = true := by
      simp [hp]
    have hpnb : ¬(((digitScan (s.code.length + 1) s).peekNext == '.')
        = true) := by simp [hpn]
    refine ⟨(((digitScan (s.code.length + 1) s).eatC).2).addToken .real,
      ?_, ?_, ?_⟩
    · simp only [LexState.lexNumber]
      rw [if_pos hpb, if_neg hpnb, if_pos hg]
    · simp [LexState.addToken, LexState.eatC, hc]
    · simp [LexState.addToken, LexState.eatC, LexState.getLoc, hc, ht, hs]
  · intro s s₁ s₂ h₁ h₂ hp hpn hg hd
    subst h₁
    subst h₂
    have hpb : ((digitScan (s.code.length + 1) s).peek == '.') = true := by
      simp [hp]
    have hpnb : ¬(((digitScan (s.code.length + 1) s).peekNext == '.')
        = true) := by simp [hpn]
    have hgneg : ¬((((digitScan (s.code.length + 1) s).eatC).2.eofB
        || ((digitScan (s.code.length + 1) s).eatC).2.isSkippable
        || (((digitScan (s.code.length + 1) s).eatC).2.peek == '\n'))
        = true) := by simp only [hg]; exact Bool.false_ne_true
    have hdb : (!((digitScan (s.code.length + 1) s).eatC).2.peek.isDigit)
        = true := by simp [hd]
    refine ⟨(((digitScan (s.code.length + 1) s).eatC).2).synchronize,
      ((((digitScan (s.code.length + 1) s).eatC).2).synchronize).getLoc,
      ?_⟩
    simp only [LexState.lexNumber, LexState.triggerError]
    rw [if_pos hpb, if_neg hpnb, if_neg hgneg, if_pos hdb]
  · intro s s₁ s₂ s₃ h₁ h₂ h₃ hp hpn hg hd hlast
    subst h₁
    subst h₂
    subst h₃
    have hpb : ((digitScan (s.code.length + 1) s).peek == '.') = true := by
      simp [hp]
    have hpnb : ¬(((digitScan (s.code.length + 1) s).peekNext == '.')
        = true) := by simp [hpn]
    have hgneg : ¬((((digitScan (s.code.length + 1) s).eatC).2.eofB
        || ((digitScan (s.code.length + 1) s).eatC).2.isSkippable
        || (((digitScan (s.code.length + 1) s).eatC).2.peek == '\n'))
        = true) := by simp only [hg]; exact Bool.false_ne_true
    have hdneg : ¬((!((digitScan
        (s.code.length + 1) s).eatC).2.peek.isDigit) = true) := by
      simp [hd]
    refine ⟨(digitScan ((((digitScan (s.code.length + 1) s).eatC).2).code.length
        + 1) (((digitScan (s.code.length + 1) s).eatC).2)).synchronize,
      ((digitScan ((((digitScan (s.code.length + 1) s).eatC).2).code.length
        + 1) (((digitScan (s.code.length + 1) s).eatC).2)).synchronize).getLoc,
      ?_⟩
    simp only [LexState.lexNumber, LexState.triggerError]
    rw [if_pos hpb, if_neg hpnb, if_neg hgneg, if_neg hdneg, if_pos hlast]

/-- Witness for C4: each general branch of `lex_number` applied at a
concrete lexer state — `1..2` for the dot-dot case, `4. ` for the
whitespace-after-dot `Real` case, `3.z` for `NonNumericDecimal` and
`1.2,` for `NoSpaceAfterNumber`. -/
theorem claim_C4_witness :
    (∃ r, LexState.lexNumber ⟨"1..2".toList, [], 0, 1⟩ = (r, none) ∧
      r.code = "1..2".toList ∧
      r.tokens = [⟨.int, slice "1..2".toList 0 1, Loc.new 0 1⟩,
                  ⟨.dotDot, slice "1..2".toList 0 3, Loc.new 0 3⟩]) ∧
    (∃ r, LexState.lexNumber ⟨"4. ".toList, [], 0, 1⟩ = (r, none) ∧
      r.code = "4. ".toList ∧
      r.tokens = [⟨.real, slice "4. ".toList 0 2, Loc.new 0 2⟩]) ∧
    (∃ s₃ loc, LexState.lexNumber ⟨"3.z".toList, [], 0, 1⟩ =
      (s₃, some ⟨.nonNumericDecimal 'z', loc⟩)) ∧
    (∃ s₄ loc, LexState.lexNumber ⟨"1.2,".toList, [], 0, 1⟩ =
      (s₄, some ⟨.noSpaceAfterNumber ',', loc⟩)) :=
  ⟨claim_C4_number_scanning.2.2.2.2.2.2.1 ⟨"1..2".toList, [], 0, 1⟩
     ⟨"1..2".toList, [], 0, 1⟩ rfl rfl rfl,
   claim_C4_number_scanning.2.2.2.2.2.2.2.1 ⟨"4. ".toList, [], 0, 1⟩
     ⟨"4. ".toList, [], 0, 1⟩ ⟨"4. ".toList, [], 0, 2⟩ rfl rfl rfl
     (by decide) rfl,
   claim_C4_number_scanning.2.2.2.2.2.2.2.2.1 ⟨"3.z".toList, [], 0, 1⟩
     ⟨"3.z".toList, [], 0, 1⟩ ⟨"3.z".toList, [], 0, 2⟩ rfl rfl rfl
     (by decide) rfl rfl,
   claim_C4_number_scanning.2.2.2.2.2.2.2.2.2 ⟨"1.2,".toList, [], 0, 1⟩
     ⟨"1.2,".toList, [], 0, 1⟩ ⟨"1.2,".toList, [], 0, 2⟩
     ⟨"1.2,".toList, [], 0, 3⟩ rfl rfl rfl rfl (by decide) rfl rfl rfl⟩

/-- C5: a source with two independently malformed `var` declarations
in sequence yields exactly two errors, in source order, in one parse
call: the parser resynchronizes to the next `NewLine`/`Eof` after each
failure and continues. -/
theorem claim_C5_two_var_errors :
    tokenize "var \nvar b if".toList =
      .ok [⟨.varKw, "var".toList, ⟨0, 3⟩⟩, ⟨.newLine, "\n".toList, ⟨4, 5⟩⟩,
           ⟨.varKw, "var".toList, ⟨5, 8⟩⟩,
           ⟨.identifier, "b".toList, ⟨9, 10⟩⟩,
           ⟨.ifKw, "if".toList, ⟨11, 13⟩⟩, ⟨.eof, "eof".toList, ⟨13, 14⟩⟩]
    ∧ parse [⟨.varKw, "var".toList, ⟨0, 3⟩⟩, ⟨.newLine, "\n".toList, ⟨4, 5⟩⟩,
             ⟨.varKw, "var".toList, ⟨5, 8⟩⟩,
             ⟨.identifier, "b".toList, ⟨9, 10⟩⟩,
             ⟨.ifKw, "if".toList, ⟨11, 13⟩⟩,
             ⟨.eof, "eof".toList, ⟨13, 14⟩⟩] =
      some (.error [⟨.varDeclNoName, ⟨0, 5⟩⟩,
                    ⟨.wrongRhsVarDecl, ⟨5, 13⟩⟩]) :=
  ⟨rfl, rfl⟩

/-- C1: tokenize and parse each return strictly disjoint outputs: the
full token/statement list exactly when the pass collected no error,
and otherwise exactly the collected (non-empty) error list — never
both and never a mixture. -/
theorem claim_C1_all_or_nothing :
    (∀ code : List Char,
      (∀ ts, tokenize code = .ok ts →
        (tokenizeRun code).2 = [] ∧ ts = (tokenizeRun code).1.tokens) ∧
      (∀ es, tokenize code = .error es →
        es = (tokenizeRun code).2 ∧ es ≠ [])) ∧
    (∀ ts stmts errs, parseRun ts = some (stmts, errs) →
      (errs = [] → parse ts = some (.ok stmts)) ∧
      (errs ≠ [] → parse ts = some (.error errs))) := by
  constructor
  · intro code
    rcases hrun : tokenizeRun code with ⟨st, errs⟩
    constructor
    · intro ts h
      simp only [tokenize, hrun] at h
      cases errs with
      | nil =>
        simp only [List.isEmpty_nil, if_true] at h
        cases h
        exact ⟨rfl, rfl⟩
      | cons e es => simp at h
    · intro es h
      simp only [tokenize, hrun] at h
      cases errs with
      | nil => simp at h
      | cons e rest =>
        simp only [List.isEmpty_cons, if_false] at h
        cases h
        exact ⟨rfl, by simp⟩
  · intro ts stmts errs h
    constructor
    · intro he
      subst he
      simp [parse, h]
    · intro hne
      simp only [parse, h]
      cases errs with
      | nil => exact absurd rfl hne
      | cons e rest => simp

/-- Witness for C1 at the concrete source `1` and its token list. -/
theorem claim_C1_witness :
    ((tokenizeRun "1".toList).2 = [] ∧
      [⟨.int, "1".toList, ⟨0, 1⟩⟩, ⟨.eof, "eof".toList, ⟨1, 2⟩⟩]
        = (tokenizeRun "1".toList).1.tokens) ∧
    parse [⟨.int, "1".toList, ⟨0, 1⟩⟩, ⟨.eof, "eof".toList, ⟨1, 2⟩⟩] =
      some (.ok [.expr (.intLiteral 1 ⟨0, 1⟩) ⟨0, 1⟩]) := by
  refine ⟨(claim_C1_all_or_nothing.1 "1".toList).1 _ rfl, ?_⟩
  exact (claim_C1_all_or_nothing.2
    [⟨.int, "1".toList, ⟨0, 1⟩⟩, ⟨.eof, "eof".toList, ⟨1, 2⟩⟩]
    [.expr (.intLiteral 1 ⟨0, 1⟩) ⟨0, 1⟩] [] rfl).1 rfl

end Raze

namespace Raze

/-- C3: assignment is right-associative (`a = b = 3` parses to
`Assign(a, Assign(b, 3))`); `7 = 6` fails with exactly
`InvalidAssignTarget`; and in general, whenever the equality-level
candidate target is followed by `=` and the recursively parsed value
succeeds, a non-`Identifier` target yields `InvalidAssignTarget`. -/
theorem claim_C3_assignment :
    tokenize "a = b = 3".toList =
      .ok [⟨.identifier, "a".toList, ⟨0, 1⟩⟩, ⟨.equal, "=".toList, ⟨2, 3⟩⟩,
           ⟨.identifier, "b".toList, ⟨4, 5⟩⟩, ⟨.equal, "=".toList, ⟨6, 7⟩⟩,
           ⟨.int, "3".toList, ⟨8, 9⟩⟩, ⟨.eof, "eof".toList, ⟨9, 10⟩⟩]
    ∧ parse [⟨.identifier, "a".toList, ⟨0, 1⟩⟩, ⟨.equal, "=".toList, ⟨2, 3⟩⟩,
             ⟨.identifier, "b".toList, ⟨4, 5⟩⟩, ⟨.equal, "=".toList, ⟨6, 7⟩⟩,
             ⟨.int, "3".toList, ⟨8, 9⟩⟩, ⟨.eof, "eof".toList, ⟨9, 10⟩⟩] =
      some (.ok [.expr
        (.assign "a".toList
          (.assign "b".toList (.intLiteral 3 ⟨0, 9⟩) ⟨0, 9⟩) ⟨0, 9⟩)
        ⟨0, 9⟩])
    ∧ tokenize "7 = 6".toList =
      .ok [⟨.int, "7".toList, ⟨0, 1⟩⟩, ⟨.equal, "=".toList, ⟨2, 3⟩⟩,
           ⟨.int, "6".toList, ⟨4, 5⟩⟩, ⟨.eof, "eof".toList, ⟨5, 6⟩⟩]
    ∧ parse [⟨.int, "7".toList, ⟨0, 1⟩⟩, ⟨.equal, "=".toList, ⟨2, 3⟩⟩,
             ⟨.int, "6".toList, ⟨4, 5⟩⟩, ⟨.eof, "eof".toList, ⟨5, 6⟩⟩] =
      some (.error [⟨.invalidAssignTarget, ⟨0, 5⟩⟩])
    ∧ (∀ (fuel : Nat) (s : PState) (e : Expr) (s₁ : PState) (tk : Token)
         (s₂ : PState) (v : Expr) (s₃ : PState),
        parseBinF fuel 0 s = some (.ok e s₁) →
        s₁.isAtK .equal = true →
        s₁.eat = .ok tk s₂ →
        parseAssignF fuel s₂ = some (.ok v s₃) →
        (∀ nm l, e ≠ .identifier nm l) →
        ∃ s₄, parseAssignF (fuel + 1) s =
          some (.err ⟨.invalidAssignTarget, s₄.getLoc⟩ s₄)) := by
  refine ⟨rfl, rfl, rfl, rfl, ?_⟩
  intro fuel s e s₁ tk s₂ v s₃ h1 h2 h3 h4 h5
  refine ⟨(s₃.triggerError .invalidAssignTarget true).2, ?_⟩
  simp only [parseAssignF, h1, h2, if_true, h3, h4]
  cases e with
  | identifier nm l => exact absurd rfl (h5 nm l)
  | binary a b c d => rfl
  | grouping a b => rfl
  | intLiteral a b => rfl
  | realLiteral a b => rfl
  | strLiteral a b => rfl
  | unary a b c => rfl
  | assign a b c => rfl

/-- Witness for C3's general part at the tokens of `7 = 6`. -/
theorem claim_C3_witness :
    ∃ s₄, parseAssignF 31
        ⟨[⟨.int, "7".toList, ⟨0, 1⟩⟩, ⟨.equal, "=".toList, ⟨2, 3⟩⟩,
          ⟨.int, "6".toList, ⟨4, 5⟩⟩, ⟨.eof, "eof".toList, ⟨5, 6⟩⟩], 0, 0⟩ =
      some (.err ⟨.invalidAssignTarget, s₄.getLoc⟩ s₄) :=
  claim_C3_assignment.2.2.2.2 30 _ _ _ _ _ _ _ rfl rfl rfl rfl
    (fun nm l h => by cases h)

end Raze

namespace Raze

theorem getD_of_lt {α : Type} (l : List α) (i : Nat) (d : α)
    (h : i < l.length) : l.getD i d = l[i] := by
  simp [List.getD_eq_getElem?_getD, List.getElem?_eq_getElem h]

theorem getD_of_le {α : Type} (l : List α) (i : Nat) (d : α)
    (h : l.length ≤ i) : l.getD i d = d := by
  simp [List.getD_eq_getElem?_getD, List.getElem?_eq_none h]

theorem peek_default_of_le (s : PState) (h : s.tokens.length ≤ s.current) :
    s.peek = defaultToken :=
  getD_of_le _ _ _ h

theorem peek_mem (s : PState) (h : s.peek.kind ≠ .eof) :
    s.peek ∈ s.tokens := by
  rcases Nat.lt_or_ge s.current s.tokens.length with hlt | hge
  · rw [PState.peek, getD_of_lt _ _ _ hlt]
    exact List.getElem_mem hlt
  · exact absurd (by rw [peek_default_of_le s hge]; rfl) h

theorem eofB_false_iff (s : PState) : s.eofB = false ↔ s.peek.kind ≠ .eof := by
  simp [PState.eofB, PState.isAtK]

theorem findIdx_getD {α : Type} (p : α → Bool) (l : List α) (d : α)
    (h : l.findIdx p < l.length) : p (l.getD (l.findIdx p) d) = true := by
  induction l with
  | nil => simp at h
  | cons a t ih =>
    by_cases hp : p a
    · simp [List.findIdx_cons, hp]
    · simp only [List.findIdx_cons, hp, cond_false] at h ⊢
      simp only [List.getD_cons_succ]
      exact ih (by simpa using h)

theorem cur_lt_eofIdx (s : PState) (hle : s.current ≤ eofIdx s.tokens)
    (h : s.peek.kind ≠ .eof) : s.current < eofIdx s.tokens := by
  rcases Nat.lt_or_ge s.current (eofIdx s.tokens) with hlt | hge
  · exact hlt
  · exfalso
    have heq : s.current = eofIdx s.tokens := Nat.le_antisymm hle hge
    rcases Nat.lt_or_ge s.current s.tokens.length with hl | hl
    · have hidx : s.tokens.findIdx (fun t => t.kind == TokenKind.eof)
          < s.tokens.length := by
        unfold eofIdx at heq; omega
      have hfound := findIdx_getD (fun t => t.kind == TokenKind.eof)
        s.tokens defaultToken hidx
      apply h
      have hpeek : s.peek
          = s.tokens.getD (s.tokens.findIdx (fun t => t.kind == TokenKind.eof))
              defaultToken := by
        rw [PState.peek]
        unfold eofIdx at heq
        rw [heq]
      rw [hpeek]
      simpa using hfound
    · exact h (by rw [peek_default_of_le s hl]; rfl)

theorem presv_refl (s : PState) : presv s s :=
  ⟨rfl, fun h => h⟩

theorem presv_trans {a b c : PState} (h₁ : presv a b) (h₂ : presv b c) :
    presv a c := by
  refine ⟨h₁.1.symm ▸ h₂.1, fun h => ?_⟩
  have hb := h₁.2 h
  have := h₂.2 (by rw [h₁.1]; exact hb)
  rwa [h₁.1] at this

theorem presv_advance (s : PState) (h : s.eofB = false) :
    presv s { s with current := s.current + 1 } := by
  refine ⟨rfl, fun hle => ?_⟩
  exact Nat.succ_le_of_lt (cur_lt_eofIdx s hle ((eofB_false_iff s).mp h))

theorem eat_presv (s : PState) : presv s (s.eat).state := by
  cases h : s.eofB with
  | true => simp only [PState.eat, h, if_true]; exact presv_refl s
  | false =>
    simp only [PState.eat, h, Bool.false_eq_true, if_false]
    exact presv_advance s h

theorem eat_state_tokens (s : PState) : (s.eat).state.tokens = s.tokens :=
  (eat_presv s).1

theorem expect_state (s : PState) (k : TokenKind) :
    (s.expect k).state = (s.eat).state := by
  unfold PState.expect
  cases he : s.eat with
  | err e s' => rfl
  | ok tk s' =>
    by_cases h : tk.kind == k
    · simp [h, PResult.state]
    · simp [h, PResult.state]

theorem expect_presv (s : PState) (k : TokenKind) :
    presv s ((s.expect k).state) := by
  rw [expect_state]; exact eat_presv s

theorem skipNLLoop_presv (fuel : Nat) (s : PState) :
    presv s (skipNLLoop fuel s) := by
  induction fuel generalizing s with
  | zero => exact presv_refl s
  | succ f ih =>
    rw [skipNLLoop]
    by_cases h : (!s.eofB && s.isAtK .newLine) = true
    · rw [if_pos h]
      have hf : s.eofB = false := by
        rcases Bool.and_eq_true _ _ |>.mp h with ⟨h1, _⟩
        simpa using h1
      exact presv_trans (presv_advance s hf) (ih _)
    · rw [if_neg h]; exact presv_refl s

theorem skipNewLines_presv (s : PState) : presv s s.skipNewLines := by
  unfold PState.skipNewLines
  have h := skipNLLoop_presv (s.tokens.length + 1) s
  exact ⟨h.1, h.2⟩

theorem syncPLoop_presv (fuel : Nat) (s : PState) :
    presv s (syncPLoop fuel s) := by
  induction fuel generalizing s with
  | zero => exact presv_refl s
  | succ f ih =>
    rw [syncPLoop]
    by_cases h : (!s.eofB && !(s.peek.kind == .newLine)) = true
    · rw [if_pos h]
      have hf : s.eofB = false := by
        rcases Bool.and_eq_true _ _ |>.mp h with ⟨h1, _⟩
        simpa using h1
      exact presv_trans (presv_advance s hf) (ih _)
    · rw [if_neg h]; exact presv_refl s

theorem synchronize_presv (s : PState) : presv s s.synchronize := by
  unfold PState.synchronize
  by_cases h : (s.prevTok.kind == TokenKind.newLine) = true
  · rw [if_pos h]; exact presv_refl s
  · rw [if_neg h]; exact syncPLoop_presv _ s

theorem triggerError_presv (s : PState) (e : ParserErr) (b : Bool) :
    presv s ((s.triggerError e b).2) := by
  cases b with
  | true => exact synchronize_presv s
  | false => exact presv_refl s

end Raze

namespace Raze

theorem parseIntLit_state (s : PState) : (parseIntLit s).state = s := by
  unfold parseIntLit
  cases parseI64 s.prevTok.value with
  | none => rfl
  | some v => rfl

theorem parseRealLit_state (s : PState) : (parseRealLit s).state = s := by
  unfold parseRealLit
  by_cases h : realOk s.prevTok.value
  · rw [if_pos h]; rfl
  · rw [if_neg h]; rfl


theorem parseStrLit_state (s : PState) : (parseStrLit s).state = s := rfl

theorem parser_presv (fuel : Nat) :
    (∀ s r, parseExprF fuel s = some r → presv s r.state) ∧
    (∀ s r, parseAssignF fuel s = some r → presv s r.state) ∧
    (∀ lvl s r, parseChildF fuel lvl s = some r → presv s r.state) ∧
    (∀ lvl s r, parseBinF fuel lvl s = some r → presv s r.state) ∧
    (∀ lvl acc s r, parseBinLoopF fuel lvl acc s = some r → presv s r.state) ∧
    (∀ s r, parseUnaryF fuel s = some r → presv s r.state) ∧
    (∀ s r, parsePrimaryF fuel s = some r → presv s r.state) ∧
    (∀ s r, parseGroupingF fuel s = some r → presv s r.state) ∧
    (∀ s r, parseDeclF fuel s = some r → presv s r.state) ∧
    (∀ s r, parseVarDeclF fuel s = some r → presv s r.state) ∧
    (∀ s r, parseStmtF fuel s = some r → presv s r.state) ∧
    (∀ s r, parsePrintF fuel s = some r → presv s r.state) ∧
    (∀ s r, parseBlockF fuel s = some r → presv s r.state) ∧
    (∀ s acc r, parseBlockLoopF fuel s acc = some r → presv s r.state) ∧
    (∀ s r, parseExprStmtF fuel s = some r → presv s r.state) := by
  induction fuel with
  | zero =>
    refine ⟨fun s r h => ?_, fun s r h => ?_, fun lvl s r h => ?_,
      fun lvl s r h => ?_, fun lvl acc s r h => ?_, fun s r h => ?_,
      fun s r h => ?_, fun s r h => ?_, fun s r h => ?_, fun s r h => ?_,
      fun s r h => ?_, fun s r h => ?_, fun s r h => ?_,
      fun s acc r h => ?_, fun s r h => ?_⟩
    · simp [parseExprF] at h
    · simp [parseAssignF] at h
    · simp [parseChildF] at h
    · simp [parseBinF] at h
    · simp [parseBinLoopF] at h
    · simp [parseUnaryF] at h
    · simp [parsePrimaryF] at h
    · simp [parseGroupingF] at h
    · simp [parseDeclF] at h
    · simp [parseVarDeclF] at h
    · simp [parseStmtF] at h
    · simp [parsePrintF] at h
    · simp [parseBlockF] at h
    · simp [parseBlockLoopF] at h
    · simp [parseExprStmtF] at h
  | succ f ih =>
    obtain ⟨ihExpr, ihAssign, ihChild, ihBin, ihBinLoop, ihUnary, ihPrim,
      ihGroup, ihDecl, ihVarDecl, ihStmt, ihPrint, ihBlock, ihBlockLoop,
      ihExprStmt⟩ := ih
    refine ⟨fun s r h => ?_, fun s r h => ?_, fun lvl s r h => ?_,
      fun lvl s r h => ?_, fun lvl acc s r h => ?_, fun s r h => ?_,
      fun s r h => ?_, fun s r h => ?_, fun s r h => ?_, fun s r h => ?_,
      fun s r h => ?_, fun s r h => ?_, fun s r h => ?_,
      fun s acc r h => ?_, fun s r h => ?_⟩
    · -- parseExprF
      simp only [parseExprF] at h
      exact ihAssign s r h
    · -- parseAssignF
      simp only [parseAssignF] at h
      cases hb : parseBinF f 0 s with
      | none => simp only [hb] at h; simp at h
      | some pr =>
        simp only [hb] at h
        cases pr with
        | err e s₁ =>
          obtain rfl := Option.some.inj h
          exact ihBin 0 s _ hb
        | ok assigne s₁ =>
          have hp1 : presv s s₁ := ihBin 0 s _ hb
          by_cases hc : s₁.isAtK .equal = true
          · simp only [hc, if_true] at h
            cases he : s₁.eat with
            | err e s₂ =>
              simp only [he] at h
              obtain rfl := Option.some.inj h
              have hp2 := eat_presv s₁; rw [he] at hp2
              exact presv_trans hp1 hp2
            | ok tk s₂ =>
              simp only [he] at h
              have hp2 : presv s₁ s₂ := by
                have := eat_presv s₁; rwa [he] at this
              cases ha : parseAssignF f s₂ with
              | none => simp only [ha] at h; simp at h
              | some pr2 =>
                simp only [ha] at h
                cases pr2 with
                | err e s₃ =>
                  obtain rfl := Option.some.inj h
                  exact presv_trans hp1 (presv_trans hp2 (ihAssign s₂ _ ha))
                | ok v s₃ =>
                  have hp3 : presv s s₃ :=
                    presv_trans hp1 (presv_trans hp2 (ihAssign s₂ _ ha))
                  cases assigne with
                  | identifier nm l =>
                    obtain rfl := Option.some.inj h
                    exact hp3
                  | binary a b c d =>
                    simp only [PState.triggerError, if_true] at h
                    obtain rfl := Option.some.inj h
                    exact presv_trans hp3 (synchronize_presv s₃)
                  | grouping a b =>
                    simp only [PState.triggerError, if_true] at h
                    obtain rfl := Option.some.inj h
                    exact presv_trans hp3 (synchronize_presv s₃)
                  | intLiteral a b =>
                    simp only [PState.triggerError, if_true] at h
                    obtain rfl := Option.some.inj h
                    exact presv_trans hp3 (synchronize_presv s₃)
                  | realLiteral a b =>
                    simp only [PState.triggerError, if_true] at h
                    obtain rfl := Option.some.inj h
                    exact presv_trans hp3 (synchronize_presv s₃)
                  | strLiteral a b =>
                    simp only [PState.triggerError, if_true] at h
                    obtain rfl := Option.some.inj h
                    exact presv_trans hp3 (synchronize_presv s₃)
                  | unary a b c =>
                    simp only [PState.triggerError, if_true] at h
                    obtain rfl := Option.some.inj h
                    exact presv_trans hp3 (synchronize_presv s₃)
                  | assign a b c =>
                    simp only [PState.triggerError, if_true] at h
                    obtain rfl := Option.some.inj h
                    exact presv_trans hp3 (synchronize_presv s₃)
          · simp only [Bool.not_eq_true] at hc
            simp only [hc, Bool.false_eq_true, if_false] at h
            obtain rfl := Option.some.inj h
            exact hp1
    · -- parseChildF
      rcases lvl with _ | _ | _ | lvl
      · simp only [parseChildF] at h; exact ihBin 1 s r h
      · simp only [parseChildF] at h; exact ihBin 2 s r h
      · simp only [parseChildF] at h; exact ihBin 3 s r h
      · simp only [parseChildF] at h; exact ihUnary s r h
    · -- parseBinF
      simp only [parseBinF] at h
      cases hc : parseChildF f lvl s with
      | none => simp only [hc] at h; simp at h
      | some pr =>
        simp only [hc] at h
        cases pr with
        | err e s₁ =>
          obtain rfl := Option.some.inj h
          exact ihChild lvl s _ hc
        | ok e s₁ =>
          exact presv_trans (ihChild lvl s _ hc) (ihBinLoop lvl e s₁ r h)
    · -- parseBinLoopF
      simp only [parseBinLoopF] at h
      by_cases hcond : ((levelKinds lvl).any fun k => s.isAtK k) = true
      · simp only [hcond, if_true] at h
        cases he : s.eat with
        | err e s₁ =>
          simp only [he] at h
          obtain rfl := Option.some.inj h
          have hp := eat_presv s; rw [he] at hp
          exact hp
        | ok tk s₁ =>
          simp only [he] at h
          have hp1 : presv s s₁ := by
            have := eat_presv s; rwa [he] at this
          cases hch : parseChildF f lvl s₁ with
          | none => simp only [hch] at h; simp at h
          | some pr =>
            simp only [hch] at h
            cases pr with
            | err e s₂ =>
              obtain rfl := Option.some.inj h
              exact presv_trans hp1 (ihChild lvl s₁ _ hch)
            | ok right s₂ =>
              exact presv_trans hp1
                (presv_trans (ihChild lvl s₁ _ hch) (ihBinLoop lvl _ s₂ r h))
      · simp only [Bool.not_eq_true] at hcond
        simp only [hcond, Bool.false_eq_true, if_false] at h
        obtain rfl := Option.some.inj h
        exact presv_refl s
    · -- parseUnaryF
      simp only [parseUnaryF] at h
      by_cases hcond : (s.isAtK .bang || s.isAtK .minus) = true
      · simp only [hcond, if_true] at h
        cases he : s.eat with
        | err e s₁ =>
          simp only [he] at h
          obtain rfl := Option.some.inj h
          have hp := eat_presv s; rw [he] at hp
          exact hp
        | ok tk s₁ =>
          simp only [he] at h
          have hp1 : presv s s₁ := by
            have := eat_presv s; rwa [he] at this
          cases hpr : parsePrimaryF f s₁ with
          | none => simp only [hpr] at h; simp at h
          | some pr =>
            simp only [hpr] at h
            cases pr with
            | err e s₂ =>
              obtain rfl := Option.some.inj h
              exact presv_trans hp1 (ihPrim s₁ _ hpr)
            | ok right s₂ =>
              obtain rfl := Option.some.inj h
              exact presv_trans hp1 (ihPrim s₁ (.ok right s₂) hpr)
      · simp only [Bool.not_eq_true] at hcond
        simp only [hcond, Bool.false_eq_true, if_false] at h
        exact ihPrim s r h
    · -- parsePrimaryF
      simp only [parsePrimaryF] at h
      cases he : s.eat with
      | err e s₁ =>
        simp only [he] at h
        obtain rfl := Option.some.inj h
        have hp := eat_presv s; rw [he] at hp
        exact hp
      | ok tk s₁ =>
        simp only [he] at h
        have hp1 : presv s s₁ := by
          have := eat_presv s; rwa [he] at this
        cases htk : tk.kind <;> simp only [htk] at h <;>
        first
        | (obtain rfl := Option.some.inj h; exact hp1)
        | (obtain rfl := Option.some.inj h
           refine presv_trans hp1 ?_
           first
           | (rw [parseIntLit_state s₁]; exact presv_refl s₁)
           | (rw [parseRealLit_state s₁]; exact presv_refl s₁))
        | (exact presv_trans hp1 (ihGroup s₁ r h))
        | (simp only [PState.triggerError, if_true] at h
           obtain rfl := Option.some.inj h
           exact presv_trans hp1 (synchronize_presv s₁))
    · -- parseGroupingF
      simp only [parseGroupingF] at h
      cases hx : parseExprF f s with
      | none => simp only [hx] at h; simp at h
      | some pr =>
        simp only [hx] at h
        cases pr with
        | err e s₁ =>
          have hp1 : presv s s₁ := ihExpr s _ hx
          obtain ⟨ee, el⟩ := e
          cases ee <;> (obtain rfl := Option.some.inj h; exact hp1)
        | ok ex s₁ =>
          have hp1 : presv s s₁ := ihExpr s _ hx
          cases hex : s₁.expect .closeParen with
          | err e2 s₂ =>
            simp only [hex] at h
            obtain rfl := Option.some.inj h
            have hp2 := expect_presv s₁ .closeParen; rw [hex] at hp2
            exact presv_trans hp1 hp2
          | ok tk2 s₂ =>
            simp only [hex] at h
            obtain rfl := Option.some.inj h
            have hp2 := expect_presv s₁ .closeParen; rw [hex] at hp2
            exact presv_trans hp1 hp2
    · -- parseDeclF
      simp only [parseDeclF] at h
      cases hk : s.peek.kind <;> simp only [hk] at h <;>
      first
      | exact ihVarDecl s r h
      | exact ihStmt s r h
    · -- parseVarDeclF
      simp only [parseVarDeclF] at h
      cases hx1 : s.expect .varKw with
      | err e s₁ =>
        simp only [hx1] at h
        obtain rfl := Option.some.inj h
        have hp := expect_presv s .varKw; rw [hx1] at hp
        exact hp
      | ok tk1 s₁ =>
        simp only [hx1] at h
        have hp1 : presv s s₁ := by
          have := expect_presv s .varKw; rwa [hx1] at this
        cases hx2 : s₁.expect .identifier with
        | err e s₂ =>
          simp only [hx2] at h
          simp only [PState.triggerError, if_true] at h
          obtain rfl := Option.some.inj h
          have hp2 : presv s₁ s₂ := by
            have := expect_presv s₁ .identifier; rwa [hx2] at this
          exact presv_trans hp1 (presv_trans hp2 (synchronize_presv s₂))
        | ok nameTok s₂ =>
          simp only [hx2] at h
          have hp2 : presv s s₂ := by
            have := expect_presv s₁ .identifier; rw [hx2] at this
            exact presv_trans hp1 this
          cases hk : s₂.peek.kind <;> simp only [hk] at h <;>
          first
          | (obtain rfl := Option.some.inj h; exact hp2)
          | (simp only [PState.triggerError, if_true] at h
             obtain rfl := Option.some.inj h
             exact presv_trans hp2 (synchronize_presv s₂))
          | (cases he : s₂.eat with
             | err e s₃ =>
               simp only [he] at h
               obtain rfl := Option.some.inj h
               have hp3 := eat_presv s₂; rw [he] at hp3
               exact presv_trans hp2 hp3
             | ok tk3 s₃ =>
               simp only [he] at h
               have hp3 : presv s s₃ := by
                 have := eat_presv s₂; rw [he] at this
                 exact presv_trans hp2 this
               cases hpe : parseExprF f s₃ with
               | none => simp only [hpe] at h; simp at h
               | some pr =>
                 simp only [hpe] at h
                 cases pr with
                 | ok v s₄ =>
                   obtain rfl := Option.some.inj h
                   exact presv_trans hp3 (ihExpr s₃ (.ok v s₄) hpe)
                 | err e s₄ =>
                   have hp4 : presv s s₄ :=
                     presv_trans hp3 (ihExpr s₃ _ hpe)
                   obtain ⟨ee, el⟩ := e
                   cases ee <;>
                     (simp only [PState.triggerError, if_true] at h
                      obtain rfl := Option.some.inj h
                      exact presv_trans hp4 (synchronize_presv s₄)))
    · -- parseStmtF
      simp only [parseStmtF] at h
      cases hk : s.peek.kind <;> simp only [hk] at h <;>
      first
      | exact ihPrint s r h
      | exact ihBlock s r h
      | exact ihExprStmt s r h
    · -- parsePrintF
      simp only [parsePrintF] at h
      cases hx : s.expect .printKw with
      | err e s₁ =>
        simp only [hx] at h
        obtain rfl := Option.some.inj h
        have hp := expect_presv s .printKw; rw [hx] at hp
        exact hp
      | ok tk s₁ =>
        simp only [hx] at h
        have hp1 : presv s s₁ := by
          have := expect_presv s .printKw; rwa [hx] at this
        cases hpe : parseExprF f s₁ with
        | none => simp only [hpe] at h; simp at h
        | some pr =>
          simp only [hpe] at h
          cases pr with
          | err e s₂ =>
            obtain rfl := Option.some.inj h
            exact presv_trans hp1 (ihExpr s₁ _ hpe)
          | ok ex s₂ =>
            obtain rfl := Option.some.inj h
            exact presv_trans hp1 (ihExpr s₁ (.ok ex s₂) hpe)
    · -- parseBlockF
      simp only [parseBlockF] at h
      cases hx : s.expect .openBrace with
      | err e s₁ =>
        simp only [hx] at h
        obtain rfl := Option.some.inj h
        have hp := expect_presv s .openBrace; rw [hx] at hp
        exact hp
      | ok tk s₁ =>
        simp only [hx] at h
        have hp1 : presv s s₁ := by
          have := expect_presv s .openBrace; rwa [hx] at this
        cases hbl : parseBlockLoopF f s₁.skipNewLines [] with
        | none => simp only [hbl] at h; simp at h
        | some pr =>
          simp only [hbl] at h
          have hp2 : presv s pr.state :=
            presv_trans hp1 (presv_trans (skipNewLines_presv s₁)
              (ihBlockLoop _ _ _ hbl))
          cases pr with
          | err e s₂ =>
            obtain rfl := Option.some.inj h
            exact hp2
          | ok stmts s₂ =>
            cases hex : s₂.expect .closeBrace with
            | err e2 s₃ =>
              simp only [hex] at h
              simp only [PState.triggerError, if_true] at h
              obtain rfl := Option.some.inj h
              have hp3 : presv s₂ s₃ := by
                have := expect_presv s₂ .closeBrace; rwa [hex] at this
              exact presv_trans hp2
                (presv_trans hp3 (synchronize_presv s₃))
            | ok tk2 s₃ =>
              simp only [hex] at h
              obtain rfl := Option.some.inj h
              have hp3 : presv s₂ s₃ := by
                have := expect_presv s₂ .closeBrace; rwa [hex] at this
              exact presv_trans hp2 hp3
    · -- parseBlockLoopF
      simp only [parseBlockLoopF] at h
      by_cases hcond : (!(s.isAtK .closeBrace) && !s.eofB) = true
      · simp only [hcond, if_true] at h
        cases hd : parseDeclF f s with
        | none => simp only [hd] at h; simp at h
        | some pr =>
          simp only [hd] at h
          cases pr with
          | err e s₁ =>
            obtain rfl := Option.some.inj h
            exact ihDecl s _ hd
          | ok st s₁ =>
            exact presv_trans (ihDecl s _ hd)
              (presv_trans (skipNewLines_presv s₁)
                (ihBlockLoop _ _ _ h))
      · simp only [Bool.not_eq_true] at hcond
        simp only [hcond, Bool.false_eq_true, if_false] at h
        obtain rfl := Option.some.inj h
        exact presv_refl s
    · -- parseExprStmtF
      simp only [parseExprStmtF] at h
      cases hpe : parseExprF f s with
      | none => simp only [hpe] at h; simp at h
      | some pr =>
        simp only [hpe] at h
        cases pr with
        | err e s₁ =>
          obtain rfl := Option.some.inj h
          exact ihExpr s _ hpe
        | ok ex s₁ =>
          obtain rfl := Option.some.inj h
          exact ihExpr s (.ok ex s₁) hpe

end Raze

namespace Raze

theorem eat_ok_dest (s : PState) (tk : Token) (s₁ : PState)
    (h : s.eat = .ok tk s₁) :
    tk = s.peek ∧ s₁ = { s with current := s.current + 1 } ∧
      s.eofB = false := by
  by_cases heof : s.eofB = true
  · simp [PState.eat, heof] at h
  · simp only [Bool.not_eq_true] at heof
    simp only [PState.eat, heof, Bool.false_eq_true, if_false] at h
    injection h with h1 h2
    refine ⟨?_, h2.symm, heof⟩
    rw [← h1]
    show s.tokens.getD (s.current + 1 - 1) defaultToken = s.peek
    rw [Nat.add_sub_cancel]
    rfl

theorem levelKinds_ne_eof (lvl : Nat) (k : TokenKind)
    (hk : k ∈ levelKinds lvl) : k ≠ TokenKind.eof := by
  rcases lvl with _ | _ | _ | _ | lvl
  · simp only [levelKinds, List.mem_cons, List.not_mem_nil, or_false] at hk
    rcases hk with rfl | rfl <;> simp
  · simp only [levelKinds, List.mem_cons, List.not_mem_nil, or_false] at hk
    rcases hk with rfl | rfl | rfl | rfl <;> simp
  · simp only [levelKinds, List.mem_cons, List.not_mem_nil, or_false] at hk
    rcases hk with rfl | rfl <;> simp
  · simp only [levelKinds, List.mem_cons, List.not_mem_nil, or_false] at hk
    rcases hk with rfl | rfl | rfl <;> simp
  · simp [levelKinds] at hk

theorem binLoop_fold (fuel : Nat) :
    ∀ lvl acc s e' s', parseBinLoopF fuel lvl acc s = some (.ok e' s') →
      ∃ ps : List (List Char × Expr × Loc),
        e' = leftChain acc ps ∧
        ∀ p ∈ ps, ∃ tok ∈ s.tokens,
          tok.kind ∈ levelKinds lvl ∧ p.1 = tok.value := by
  induction fuel with
  | zero =>
    intro lvl acc s e' s' h
    simp [parseBinLoopF] at h
  | succ f ih =>
    intro lvl acc s e' s' h
    simp only [parseBinLoopF] at h
    by_cases hcond : ((levelKinds lvl).any fun k => s.isAtK k) = true
    · simp only [hcond, if_true] at h
      cases he : s.eat with
      | err e s₁ =>
        simp only [he] at h
        exact PResult.noConfusion (Option.some.inj h)
      | ok tk s₁ =>
        simp only [he] at h
        cases hch : parseChildF f lvl s₁ with
        | none => simp only [hch] at h; simp at h
        | some pr =>
          simp only [hch] at h
          cases pr with
          | err e s₂ => exact PResult.noConfusion (Option.some.inj h)
          | ok right s₂ =>
            obtain ⟨ps, hfold, hmem⟩ :=
              ih lvl (.binary acc tk.value right s₂.getLoc) s₂ e' s' h
            refine ⟨(tk.value, right, s₂.getLoc) :: ps, ?_, ?_⟩
            · simpa [leftChain] using hfold
            · intro p hp
              rcases List.mem_cons.mp hp with rfl | hp'
              · obtain ⟨htk, hs₁, heof⟩ := eat_ok_dest s tk s₁ he
                obtain ⟨k, hkmem, hatk⟩ := List.any_eq_true.mp hcond
                have hkind : s.peek.kind = k := by
                  simpa [PState.isAtK] using hatk
                refine ⟨s.peek, peek_mem s ?_, ?_, ?_⟩
                · rw [hkind]; exact levelKinds_ne_eof lvl k hkmem
                · rw [hkind]; exact hkmem
                · rw [htk]
              · obtain ⟨tok, htokmem, hkd, hval⟩ := hmem p hp'
                refine ⟨tok, ?_, hkd, hval⟩
                have h1 : s₁.tokens = s.tokens := by
                  have := eat_presv s; rw [he] at this; exact this.1
                have h2 : s₂.tokens = s₁.tokens :=
                  ((parser_presv f).2.2.1 lvl s₁ (.ok right s₂) hch).1
                rw [h2, h1] at htokmem
                exact htokmem
    · simp only [Bool.not_eq_true] at hcond
      simp only [hcond, Bool.false_eq_true, if_false] at h
      have h2 := Option.some.inj h
      injection h2 with hA hB
      subst hA
      exact ⟨[], rfl, by simp⟩

end Raze

namespace Raze

/-- C2: binary operators follow the precedence ladder and are
left-associative: `2 + 3 * 4` parses to `Binary(+, 2, Binary(*, 3, 4))`
and `8 - 3 - 2` parses to `Binary(-, Binary(-, 8, 3), 2)`; in general,
each precedence level's folding loop yields a left-leaning chain of
`Binary` nodes whose operator texts come from tokens of that level's
operator set. -/
theorem claim_C2_precedence_left_assoc :
    tokenize "2 + 3 * 4".toList =
      .ok [⟨.int, "2".toList, ⟨0, 1⟩⟩, ⟨.plus, "+".toList, ⟨2, 3⟩⟩,
           ⟨.int, "3".toList, ⟨4, 5⟩⟩, ⟨.star, "*".toList, ⟨6, 7⟩⟩,
           ⟨.int, "4".toList, ⟨8, 9⟩⟩, ⟨.eof, "eof".toList, ⟨9, 10⟩⟩]
    ∧ parse [⟨.int, "2".toList, ⟨0, 1⟩⟩, ⟨.plus, "+".toList, ⟨2, 3⟩⟩,
             ⟨.int, "3".toList, ⟨4, 5⟩⟩, ⟨.star, "*".toList, ⟨6, 7⟩⟩,
             ⟨.int, "4".toList, ⟨8, 9⟩⟩, ⟨.eof, "eof".toList, ⟨9, 10⟩⟩] =
      some (.ok [.expr
        (.binary (.intLiteral 2 ⟨0, 2⟩) "+".toList
          (.binary (.intLiteral 3 ⟨0, 6⟩) "*".toList
            (.intLiteral 4 ⟨0, 9⟩) ⟨0, 9⟩) ⟨0, 9⟩) ⟨0, 9⟩])
    ∧ tokenize "8 - 3 - 2".toList =
      .ok [⟨.int, "8".toList, ⟨0, 1⟩⟩, ⟨.minus, "-".toList, ⟨2, 3⟩⟩,
           ⟨.int, "3".toList, ⟨4, 5⟩⟩, ⟨.minus, "-".toList, ⟨6, 7⟩⟩,
           ⟨.int, "2".toList, ⟨8, 9⟩⟩, ⟨.eof, "eof".toList, ⟨9, 10⟩⟩]
    ∧ parse [⟨.int, "8".toList, ⟨0, 1⟩⟩, ⟨.minus, "-".toList, ⟨2, 3⟩⟩,
             ⟨.int, "3".toList, ⟨4, 5⟩⟩, ⟨.minus, "-".toList, ⟨6, 7⟩⟩,
             ⟨.int, "2".toList, ⟨8, 9⟩⟩, ⟨.eof, "eof".toList, ⟨9, 10⟩⟩] =
      some (.ok [.expr
        (.binary
          (.binary (.intLiteral 8 ⟨0, 2⟩) "-".toList
            (.intLiteral 3 ⟨0, 6⟩) ⟨0, 6⟩) "-".toList
          (.intLiteral 2 ⟨0, 9⟩) ⟨0, 9⟩) ⟨0, 9⟩])
    ∧ (∀ fuel lvl acc s e' s',
        parseBinLoopF fuel lvl acc s = some (.ok e' s') →
        ∃ ps : List (List Char × Expr × Loc),
          e' = leftChain acc ps ∧
          ∀ p ∈ ps, ∃ tok ∈ s.tokens,
            tok.kind ∈ levelKinds lvl ∧ p.1 = tok.value) :=
  ⟨rfl, rfl, rfl, rfl, fun fuel => binLoop_fold fuel⟩

/-- Witness for C2's general part at the term-level folding loop of
`8 - 3 - 2` (level 2, seed operand `8`). -/
theorem claim_C2_witness :
    ∃ ps : List (List Char × Expr × Loc),
      Expr.binary
          (.binary (.intLiteral 8 ⟨0, 2⟩) "-".toList
            (.intLiteral 3 ⟨0, 6⟩) ⟨0, 6⟩) "-".toList
          (.intLiteral 2 ⟨0, 9⟩) ⟨0, 9⟩
        = leftChain (.intLiteral 8 ⟨0, 2⟩) ps ∧
      ∀ p ∈ ps, ∃ tok ∈
        ([⟨.int, "8".toList, ⟨0, 1⟩⟩, ⟨.minus, "-".toList, ⟨2, 3⟩⟩,
          ⟨.int, "3".toList, ⟨4, 5⟩⟩, ⟨.minus, "-".toList, ⟨6, 7⟩⟩,
          ⟨.int, "2".toList, ⟨8, 9⟩⟩,
          ⟨.eof, "eof".toList, ⟨9, 10⟩⟩] : List Token),
          tok.kind ∈ levelKinds 2 ∧ p.1 = tok.value :=
  claim_C2_precedence_left_assoc.2.2.2.2 30 2 (.intLiteral 8 ⟨0, 2⟩)
    ⟨[⟨.int, "8".toList, ⟨0, 1⟩⟩, ⟨.minus, "-".toList, ⟨2, 3⟩⟩,
      ⟨.int, "3".toList, ⟨4, 5⟩⟩, ⟨.minus, "-".toList, ⟨6, 7⟩⟩,
      ⟨.int, "2".toList, ⟨8, 9⟩⟩, ⟨.eof, "eof".toList, ⟨9, 10⟩⟩], 0, 1⟩
    _ _ rfl

end Raze

namespace Raze

/-- C9: for every non-empty token list ending in `Eof`, the parser's
cursor never advances past the index of the first `Eof` token: the
first `Eof` index is in bounds, `eat` at the `Eof` position returns an
`UnexpectedEof` error without advancing, the top-loop components
(`skip_new_lines` and `parse_declarations`, which transitively drive
every other routine) preserve the cursor bound and never touch the
token buffer, and a cursor within the bound makes every `at()` access
in bounds. -/
theorem claim_C9_no_out_of_bounds :
    ∀ (ts : List Token) (h : ts ≠ []), (ts.getLast h).kind = .eof →
      (eofIdx ts < ts.length)
      ∧ (∀ s : PState, s.tokens = ts → s.eofB = true →
          s.eat = .err ⟨.unexpectedEof, s.getLoc⟩ s)
      ∧ (∀ fuel s r, s.tokens = ts → parseDeclF fuel s = some r →
          r.state.tokens = ts ∧
          (s.current ≤ eofIdx ts → r.state.current ≤ eofIdx ts))
      ∧ (∀ s : PState, s.tokens = ts →
          s.skipNewLines.tokens = ts ∧
          (s.current ≤ eofIdx ts → s.skipNewLines.current ≤ eofIdx ts))
      ∧ (∀ s : PState, s.tokens = ts → s.current ≤ eofIdx ts →
          s.current < ts.length) := by
  intro ts hne hlast
  have hlt : eofIdx ts < ts.length := by
    apply List.findIdx_lt_length_of_exists
    exact ⟨ts.getLast hne, List.getLast_mem hne, by simp [hlast]⟩
  refine ⟨hlt, ?_, ?_, ?_, ?_⟩
  · intro s hts heof
    simp [PState.eat, heof]
  · intro fuel s r hts hd
    obtain ⟨hp1, hp2⟩ := (parser_presv fuel).2.2.2.2.2.2.2.2.1 s r hd
    rw [hts] at hp1 hp2
    exact ⟨hp1, hp2⟩
  · intro s hts
    obtain ⟨hp1, hp2⟩ := skipNewLines_presv s
    rw [hts] at hp1 hp2
    exact ⟨hp1, hp2⟩
  · intro s hts hle
    exact Nat.lt_of_le_of_lt hle hlt

/-- Witness for C9 at the token list of source `1`. -/
theorem claim_C9_witness :
    (eofIdx [⟨.int, "1".toList, ⟨0, 1⟩⟩, ⟨.eof, "eof".toList, ⟨1, 2⟩⟩]
      < 2)
    ∧ ((⟨[⟨.int, "1".toList, ⟨0, 1⟩⟩, ⟨.eof, "eof".toList, ⟨1, 2⟩⟩],
        0, 1⟩ : PState).eat =
        .err ⟨.unexpectedEof, ⟨0, 1⟩⟩
          ⟨[⟨.int, "1".toList, ⟨0, 1⟩⟩, ⟨.eof, "eof".toList, ⟨1, 2⟩⟩],
           0, 1⟩)
    ∧ ((1 : Nat) ≤
        eofIdx [⟨.int, "1".toList, ⟨0, 1⟩⟩,
                ⟨.eof, "eof".toList, ⟨1, 2⟩⟩]) := by
  have h := claim_C9_no_out_of_bounds
    [⟨.int, "1".toList, ⟨0, 1⟩⟩, ⟨.eof, "eof".toList, ⟨1, 2⟩⟩]
    (by simp) rfl
  refine ⟨h.1, h.2.1 _ rfl rfl, ?_⟩
  have hd := h.2.2.1 25
    ⟨[⟨.int, "1".toList, ⟨0, 1⟩⟩, ⟨.eof, "eof".toList, ⟨1, 2⟩⟩], 0, 0⟩
    (.ok (.expr (.intLiteral 1 ⟨0, 1⟩) ⟨0, 1⟩)
      ⟨[⟨.int, "1".toList, ⟨0, 1⟩⟩, ⟨.eof, "eof".toList, ⟨1, 2⟩⟩], 0, 1⟩)
    rfl rfl
  exact hd.2 (Nat.zero_le _)

end Raze

namespace Raze

theorem peekL_oob (s : LexState) (h : s.code.length ≤ s.current) :
    s.peek = '\x00' :=
  getD_of_le _ _ _ h

theorem identScan_spec (fuel : Nat) :
    ∀ s : LexState, s.code.length - s.current ≤ fuel →
      (identScan fuel s).code = s.code ∧
      (identScan fuel s).tokens = s.tokens ∧
      (identScan fuel s).start = s.start ∧
      s.current ≤ (identScan fuel s).current ∧
      (s.current ≤ s.code.length →
        (identScan fuel s).current ≤ s.code.length) ∧
      (∀ i, s.current ≤ i → i < (identScan fuel s).current →
        isAlnumU (s.code.getD i '\x00') = true) ∧
      isAlnumU ((identScan fuel s).peek) = false := by
  induction fuel with
  | zero =>
    intro s hf
    have hcur : s.code.length ≤ s.current := by omega
    rw [identScan]
    refine ⟨rfl, rfl, rfl, Nat.le_refl _, fun h => by omega,
      fun i h1 h2 => by omega, ?_⟩
    rw [peekL_oob s hcur]
    decide
  | succ f ih =>
    intro s hf
    rw [identScan]
    by_cases hc : (s.peek.isAlphanum || s.peek == '_') = true
    · rw [if_pos hc]
      have hin : s.current < s.code.length := by
        by_contra hge
        rw [peekL_oob s (by omega)] at hc
        simp at hc
      have hf' : s.code.length - ((s.eatC).2).current ≤ f := by
        show s.code.length - (s.current + 1) ≤ f
        omega
      obtain ⟨hcode, htoks, hstart, hcur, hbound, hchars, hpeek⟩ :=
        ih (s.eatC).2 hf'
      refine ⟨hcode, htoks, hstart, by
          refine Nat.le_trans ?_ hcur
          show s.current ≤ s.current + 1
          omega,
        fun hsc => hbound (by show s.current + 1 ≤ s.code.length; omega),
        ?_, hpeek⟩
      intro i h1 h2
      rcases Nat.eq_or_lt_of_le h1 with rfl | hgt
      · simpa [isAlnumU, LexState.peek] using hc
      · exact hchars i (by show s.current + 1 ≤ i; omega) h2
    · rw [if_neg hc]
      simp only [Bool.not_eq_true] at hc
      refine ⟨rfl, rfl, rfl, Nat.le_refl _, fun h => h,
        fun i h1 h2 => by omega, ?_⟩
      simpa [isAlnumU] using hc

/-- Counterexample to C6 as stated: `1a` is a maximal
alphanumeric/underscore run, yet it lexes as the two tokens
`Int("1"), Identifier("a")` — no produced token spans the whole run
`[0, 2)` (runs starting with a digit are taken by the number scanner
instead). -/
theorem claim_C6_counterexample :
    tokenize "1a".toList =
      .ok [⟨.int, "1".toList, ⟨0, 1⟩⟩, ⟨.identifier, "a".toList, ⟨1, 2⟩⟩,
           ⟨.eof, "eof".toList, ⟨2, 3⟩⟩]
    ∧ (∀ c ∈ "1a".toList, isAlnumU c = true)
    ∧ (∀ t ∈ [(⟨.int, "1".toList, ⟨0, 1⟩⟩ : Token),
              ⟨.identifier, "a".toList, ⟨1, 2⟩⟩,
              ⟨.eof, "eof".toList, ⟨2, 3⟩⟩], t.loc ≠ ⟨0, 2⟩) :=
  ⟨rfl, by decide, by decide⟩

/-- C6 (amended): every maximal alphanumeric/underscore run that
*begins with an alphabetic character*, scanned from its first
character (the state shape at which `tokenize` dispatches into
`lex_identifier`: the first character just eaten), lexes as a single
token: a keyword token when the run exactly matches the keyword
table, else an `Identifier` carrying the run's literal characters.
(As stated the claim fails for runs beginning with a digit or
underscore — see the counterexample.) -/
theorem claim_C6_amended :
    tokenize "var foo".toList =
      .ok [⟨.varKw, "var".toList, ⟨0, 3⟩⟩,
           ⟨.identifier, "foo".toList, ⟨4, 7⟩⟩,
           ⟨.eof, "eof".toList, ⟨7, 8⟩⟩]
    ∧ ∀ s : LexState, s.current = s.start + 1 →
        s.start < s.code.length →
        (s.code.getD s.start '\x00').isAlpha = true →
        ∃ e, s.start < e ∧ e ≤ s.code.length ∧
          (∀ i, s.start ≤ i → i < e →
            isAlnumU (s.code.getD i '\x00') = true) ∧
          isAlnumU (s.code.getD e '\x00') = false ∧
          s.lexIdentifier.code = s.code ∧
          s.lexIdentifier.tokens = s.tokens ++
            [⟨(keywordLookup (slice s.code s.start e)).getD .identifier,
              slice s.code s.start e, ⟨s.start, e⟩⟩] ∧
          s.lexIdentifier.current = e := by
  refine ⟨rfl, ?_⟩
  intro s hcur0 hlt halpha
  obtain ⟨hcode, htoks, hstart, hcur, hbound, hchars, hpeek⟩ :=
    identScan_spec (s.code.length + 1) s (by omega)
  refine ⟨(identScan (s.code.length + 1) s).current, ?_, ?_, ?_, ?_, ?_⟩
  · omega
  · exact hbound (by omega)
  · intro i h1 h2
    rcases Nat.eq_or_lt_of_le h1 with rfl | hgt
    · simp only [isAlnumU, Char.isAlphanum, halpha, Bool.true_or]
    · exact hchars i (by omega) h2
  · have hpk : (identScan (s.code.length + 1) s).peek
        = s.code.getD (identScan (s.code.length + 1) s).current '\x00' := by
      rw [LexState.peek, hcode]
    rwa [hpk] at hpeek
  · have hident : slice (identScan (s.code.length + 1) s).code
        (identScan (s.code.length + 1) s).start
        (identScan (s.code.length + 1) s).current
        = slice s.code s.start (identScan (s.code.length + 1) s).current := by
      rw [hcode, hstart]
    simp only [LexState.lexIdentifier, hident]
    cases hkw : keywordLookup
        (slice s.code s.start (identScan (s.code.length + 1) s).current) with
    | some k =>
      simp only [hkw, LexState.addToken, LexState.getLoc]
      exact ⟨hcode, by rw [htoks, hident, hstart]; simp [Loc.new], trivial⟩
    | none =>
      simp only [hkw, LexState.addValueToken, LexState.getLoc]
      exact ⟨hcode, by rw [htoks, hstart]; simp [Loc.new], trivial⟩

/-- Witness for C6 (amended) at the source `ab` (state just after the
initial `a` was eaten). -/
theorem claim_C6_witness :
    ∃ e, (⟨"ab".toList, [], 0, 1⟩ : LexState).start < e ∧
      e ≤ (⟨"ab".toList, [], 0, 1⟩ : LexState).code.length ∧
      (∀ i, (⟨"ab".toList, [], 0, 1⟩ : LexState).start ≤ i → i < e →
        isAlnumU ((⟨"ab".toList, [], 0, 1⟩ : LexState).code.getD i '\x00')
          = true) ∧
      isAlnumU ((⟨"ab".toList, [], 0, 1⟩ : LexState).code.getD e '\x00')
        = false ∧
      (⟨"ab".toList, [], 0, 1⟩ : LexState).lexIdentifier.code
        = (⟨"ab".toList, [], 0, 1⟩ : LexState).code ∧
      (⟨"ab".toList, [], 0, 1⟩ : LexState).lexIdentifier.tokens
        = (⟨"ab".toList, [], 0, 1⟩ : LexState).tokens ++
          [⟨(keywordLookup (slice (⟨"ab".toList, [], 0, 1⟩
                : LexState).code
              (⟨"ab".toList, [], 0, 1⟩ : LexState).start e)).getD
                .identifier,
            slice (⟨"ab".toList, [], 0, 1⟩ : LexState).code
              (⟨"ab".toList, [], 0, 1⟩ : LexState).start e,
            ⟨(⟨"ab".toList, [], 0, 1⟩ : LexState).start, e⟩⟩] ∧
      (⟨"ab".toList, [], 0, 1⟩ : LexState).lexIdentifier.current = e :=
  claim_C6_amended.2 ⟨"ab".toList, [], 0, 1⟩ rfl (by decide) (by decide)

end Raze

namespace Raze

theorem eofB_ge (s : LexState) (h : s.eofB = true) :
    s.code.length ≤ s.current := by
  simp only [LexState.eofB, ge_iff_le, decide_eq_true_eq] at h
  exact h

theorem eofB_lt (s : LexState) (h : s.eofB = false) :
    s.current < s.code.length := by
  simp only [LexState.eofB, ge_iff_le, decide_eq_false_iff_not,
    Nat.not_le] at h
  exact h

theorem syncLoop_spec (fuel : Nat) :
    ∀ s : LexState, s.code.length - s.current ≤ fuel →
      (syncLoop fuel s).code = s.code ∧
      (syncLoop fuel s).tokens = s.tokens ∧
      (syncLoop fuel s).start = s.start ∧
      s.current ≤ (syncLoop fuel s).current ∧
      (s.current ≤ s.code.length →
        (syncLoop fuel s).current ≤ s.code.length) ∧
      (∀ i, s.current ≤ i → i < (syncLoop fuel s).current →
        isWsNl (s.code.getD i '\x00') = false) ∧
      (isWsNl ((syncLoop fuel s).peek) = true ∨
        (syncLoop fuel s).current ≥ s.code.length) := by
  induction fuel with
  | zero =>
    intro s hf
    rw [syncLoop]
    exact ⟨rfl, rfl, rfl, Nat.le_refl _, fun h => h,
      fun i h1 h2 => by omega, Or.inr (by omega)⟩
  | succ f ih =>
    intro s hf
    rw [syncLoop]
    by_cases hc : (!s.isSkippable && s.peek != '\n' && !s.eofB) = true
    · rw [if_pos hc]
      simp only [Bool.and_eq_true, Bool.not_eq_true'] at hc
      obtain ⟨⟨hskip, hnl⟩, heof⟩ := hc
      have hnl' : (s.peek == '\n') = false := by
        simpa [bne] using hnl
      have hin : s.current < s.code.length := eofB_lt s heof
      have hf' : s.code.length - (s.current + 1) ≤ f := by omega
      obtain ⟨hcode, htoks, hstart, hcur, hbound, hchars, hstop⟩ :=
        ih { s with current := s.current + 1 } hf'
      refine ⟨hcode, htoks, hstart,
        Nat.le_trans (show s.current ≤ s.current + 1 by omega) hcur,
        fun hsc => hbound (show s.current + 1 ≤ s.code.length by omega),
        ?_, hstop⟩
      intro i h1 h2
      rcases Nat.eq_or_lt_of_le h1 with rfl | hgt
      · simp only [LexState.isSkippable, LexState.peek,
          Bool.or_eq_false_iff] at hskip
        rw [LexState.peek] at hnl'
        simp only [isWsNl, Bool.or_eq_false_iff]
        exact ⟨hskip, hnl'⟩
      · exact hchars i (show s.current + 1 ≤ i by omega) h2
    · rw [if_neg hc]
      refine ⟨rfl, rfl, rfl, Nat.le_refl _, fun h => h,
        fun i h1 h2 => by omega, ?_⟩
      cases hb1 : s.isSkippable with
      | true =>
        refine Or.inl ?_
        simp only [LexState.isSkippable, Bool.or_eq_true] at hb1
        simp only [isWsNl, Bool.or_eq_true]
        tauto
      | false =>
        cases hb2 : (s.peek == '\n') with
        | true =>
          refine Or.inl ?_
          simp only [isWsNl, Bool.or_eq_true]
          tauto
        | false =>
          cases hb3 : s.eofB with
          | true => exact Or.inr (eofB_ge s hb3)
          | false => exact absurd (by simp [bne, hb1, hb2, hb3]) hc

end Raze

namespace Raze

theorem eofB_of_ge (s : LexState) (h : s.code.length ≤ s.current) :
    s.eofB = true := by
  simp only [LexState.eofB, ge_iff_le, decide_eq_true_eq]
  exact h

theorem stringScan_noquote (fuel : Nat) :
    ∀ s : LexState, s.code.length - s.current ≤ fuel →
      s.current ≤ s.code.length →
      (∀ i, s.current ≤ i → i < s.code.length →
        ¬ (s.code.getD i '\x00' = '\"')) →
      (stringScan fuel s).code = s.code ∧
      (stringScan fuel s).start = s.start ∧
      (stringScan fuel s).current = s.code.length := by
  induction fuel with
  | zero =>
    intro s hf hle hq
    rw [stringScan]
    exact ⟨rfl, rfl, by omega⟩
  | succ f ih =>
    intro s hf hle hq
    rw [stringScan]
    rcases Nat.eq_or_lt_of_le hle with heq | hlt
    · have heof : s.eofB = true := eofB_of_ge s (by omega)
      rw [if_neg (by simp [heof])]
      exact ⟨rfl, rfl, by omega⟩
    · have heof : s.eofB = false := by
        simp only [LexState.eofB, ge_iff_le, decide_eq_false_iff_not,
          Nat.not_le]
        omega
      have hpk : ¬ (s.peek = '\"') := by
        rw [LexState.peek]
        exact hq s.current (Nat.le_refl _) hlt
      have hcond : (!s.eofB && s.peek != '\"') = true := by
        simp [heof, bne, hpk]
      rw [if_pos hcond]
      by_cases hnl : (s.peek == '\n') = true
      · rw [if_pos hnl]
        exact ih (((s.eatC).2).addToken .newLine)
          (show s.code.length - (s.current + 1) ≤ f by omega)
          (show s.current + 1 ≤ s.code.length by omega)
          (fun i h1 h2 => hq i
            (by have h1' : s.current + 1 ≤ i := h1; omega) h2)
      · rw [if_neg hnl]
        exact ih (s.eatC).2
          (show s.code.length - (s.current + 1) ≤ f by omega)
          (show s.current + 1 ≤ s.code.length by omega)
          (fun i h1 h2 => hq i
            (by have h1' : s.current + 1 ≤ i := h1; omega) h2)

end Raze

namespace Raze

theorem lexString_noquote (s : LexState)
    (hcur : s.current = s.start + 1)
    (hlt : s.start < s.code.length)
    (hquote : s.code.getD s.start '\x00' = '\"')
    (hnoq : ∀ i, s.current ≤ i → i < s.code.length →
      ¬ (s.code.getD i '\x00' = '\"')) :
    ∃ w, (s.lexString).2 = some ⟨.stringNeverClosed, ⟨s.start, w⟩⟩ ∧
      (s.lexString).1.current = w ∧
      s.start < w ∧ w ≤ s.code.length ∧
      (∀ i, s.start ≤ i → i < w → isWsNl (s.code.getD i '\x00') = false) ∧
      (isWsNl (s.code.getD w '\x00') = true ∨ w = s.code.length) := by
  obtain ⟨hcode₁, hstart₁, hcur₁⟩ :=
    stringScan_noquote (s.code.length + 1) s (by omega) (by omega) hnoq
  have heof : (stringScan (s.code.length + 1) s).eofB = true := by
    apply eofB_of_ge
    rw [hcode₁, hcur₁]
  simp only [LexState.lexString, heof, if_true, LexState.triggerError,
    LexState.synchronize]
  set s₁ := stringScan (s.code.length + 1) s with hs₁
  obtain ⟨hcode₂, htoks₂, hstart₂, hcur₂, hbound₂, hchars₂, hstop₂⟩ :=
    syncLoop_spec (s₁.code.length + 1) { s₁ with current := s₁.start }
      (show s₁.code.length - s₁.start ≤ s₁.code.length + 1 by omega)
  set w := (syncLoop (s₁.code.length + 1)
    { s₁ with current := s₁.start }).current with hwdef
  have hwge : s.start ≤ w := by
    have : s₁.start ≤ w := hcur₂
    rw [hstart₁] at this
    exact this
  have hwle : w ≤ s.code.length := by
    have := hbound₂ (show s₁.start ≤ s₁.code.length by
      rw [hstart₁, hcode₁]; omega)
    rw [hcode₁] at this
    exact this
  have hchars : ∀ i, s.start ≤ i → i < w →
      isWsNl (s.code.getD i '\x00') = false := by
    intro i h1 h2
    rw [← hcode₁]
    exact hchars₂ i (show s₁.start ≤ i by rw [hstart₁]; exact h1) h2
  have hstop : isWsNl (s.code.getD w '\x00') = true ∨
      w ≥ s.code.length := by
    rcases hstop₂ with hstop | hstop
    · refine Or.inl ?_
      have hpk : (syncLoop (s₁.code.length + 1)
          { s₁ with current := s₁.start }).peek
          = s.code.getD w '\x00' := by
        rw [LexState.peek, hcode₂]
        show s₁.code.getD w '\x00' = s.code.getD w '\x00'
        rw [hcode₁]
      rw [hpk] at hstop
      exact hstop
    · refine Or.inr ?_
      have : w ≥ s₁.code.length := hstop
      rw [hcode₁] at this
      exact this
  have hwne : w ≠ s.start := by
    intro hweq
    rcases hstop with hstop | hstop
    · rw [hweq, hquote] at hstop
      simp [isWsNl] at hstop
    · omega
  refine ⟨w, ?_, rfl, by omega, hwle, hchars, ?_⟩
  · have hst : (syncLoop (s₁.code.length + 1)
        { s₁ with current := s₁.start }).start = s.start := by
      rw [hstart₂]
      show s₁.start = s.start
      exact hstart₁
    simp only [LexState.getLoc, hst, Loc.new]
  · rcases hstop with hstop | hstop
    · exact Or.inl hstop
    · exact Or.inr (by omega)

/-- Counterexample to C8's location clause: for the unterminated
string `" a` (which contains a space), the single `StringNeverClosed`
error is located at `(0, 1)` — the resynchronization stops at the
first whitespace — not at end-of-input (character index 3). -/
theorem claim_C8_counterexample :
    tokenize "\" a".toList =
      .error [⟨.stringNeverClosed, ⟨0, 1⟩⟩]
    ∧ "\" a".toList.length = 3
    ∧ (1 : Nat) ≠ 3 :=
  ⟨rfl, rfl, by decide⟩

/-- C8 (amended): a string literal whose closing quote is never found
before end-of-input yields exactly one `StringNeverClosed` error for
that scan, located on the span from the opening quote to the first
whitespace/newline/end-of-input after it — which is end-of-input
exactly when the unterminated literal contains no whitespace, as in
the spec's example: `tokenize "\"foo"` returns exactly
`[StringNeverClosed]` located at `(0, 4)` with `4` the input length. -/
theorem claim_C8_string_never_closed :
    (tokenize "\"foo".toList =
      .error [⟨.stringNeverClosed, ⟨0, 4⟩⟩]
     ∧ "\"foo".toList.length = 4)
    ∧ ∀ s : LexState, s.current = s.start + 1 →
        s.start < s.code.length →
        s.code.getD s.start '\x00' = '\"' →
        (∀ i, s.current ≤ i → i < s.code.length →
          ¬ (s.code.getD i '\x00' = '\"')) →
        ∃ w, (s.lexString).2 =
            some ⟨.stringNeverClosed, ⟨s.start, w⟩⟩ ∧
          (s.lexString).1.current = w ∧
          s.start < w ∧ w ≤ s.code.length ∧
          (∀ i, s.start ≤ i → i < w →
            isWsNl (s.code.getD i '\x00') = false) ∧
          (isWsNl (s.code.getD w '\x00') = true ∨ w = s.code.length) :=
  ⟨⟨rfl, rfl⟩, lexString_noquote⟩

/-- Witness for C8's general part at the unterminated literal `"foo`
(state just after the opening quote was eaten). -/
theorem claim_C8_witness :
    ∃ w, ((⟨"\"foo".toList, [], 0, 1⟩ : LexState).lexString).2 =
        some ⟨.stringNeverClosed, ⟨0, w⟩⟩ ∧
      ((⟨"\"foo".toList, [], 0, 1⟩ : LexState).lexString).1.current = w ∧
      0 < w ∧ w ≤ ("\"foo".toList).length ∧
      (∀ i, 0 ≤ i → i < w →
        isWsNl ("\"foo".toList.getD i '\x00') = false) ∧
      (isWsNl ("\"foo".toList.getD w '\x00') = true ∨
        w = ("\"foo".toList).length) :=
  claim_C8_string_never_closed.2 ⟨"\"foo".toList, [], 0, 1⟩ rfl
    (by decide) (by decide) (by decide)

end Raze

namespace Raze

theorem nlTokensIn_zero (code : List Char) (start a b : Nat) (h : b ≤ a) :
    nlTokensIn code start a b = [] := by
  unfold nlTokensIn
  have : b - a = 0 := by omega
  rw [this]
  simp

theorem nlTokensIn_step (code : List Char) (start a b : Nat) (h : a < b) :
    nlTokensIn code start a b =
      (if code.getD a '\x00' == '\n' then
        [⟨.newLine, slice code start (a + 1), Loc.new start (a + 1)⟩]
       else []) ++ nlTokensIn code start (a + 1) b := by
  unfold nlTokensIn
  have hn : b - a = (b - (a + 1)) + 1 := by omega
  rw [hn, List.range'_succ, List.filter_cons]
  by_cases hnl : (code.getD a '\x00' == '\n') = true
  · rw [if_pos hnl, if_pos hnl]
    simp
  · rw [if_neg hnl, if_neg hnl]
    simp

theorem slice_step (code : List Char) (a b : Nat) (hab : a < b)
    (ha : a < code.length) :
    slice code a b = code.getD a '\x00' :: slice code (a + 1) b := by
  unfold slice
  rw [List.drop_eq_getElem_cons ha]
  have hn : b - a = (b - (a + 1)) + 1 := by omega
  rw [hn, List.take_succ_cons]
  rw [getD_of_lt _ _ _ ha]

theorem slice_nil (code : List Char) (a b : Nat) (h : b ≤ a) :
    slice code a b = [] := by
  unfold slice
  have : b - a = 0 := by omega
  rw [this]
  simp

theorem nlTokensIn_length_count (code : List Char) (start : Nat) :
    ∀ n a b, a + n = b → b ≤ code.length →
      (nlTokensIn code start a b).length = (slice code a b).count '\n' := by
  intro n
  induction n with
  | zero =>
    intro a b h hb
    rw [nlTokensIn_zero code start a b (by omega),
      slice_nil code a b (by omega)]
    rfl
  | succ k ih =>
    intro a b h hb
    have hab : a < b := by omega
    have halen : a < code.length := by omega
    rw [nlTokensIn_step code start a b hab, slice_step code a b hab halen,
      List.count_cons, List.length_append,
      ih (a + 1) b (by omega) hb]
    by_cases hnl : (code.getD a '\x00' == '\n') = true
    · rw [if_pos hnl, if_pos hnl]
      simp [Nat.add_comm]
    · rw [if_neg hnl, if_neg hnl]
      simp

theorem nlTokensIn_kinds (code : List Char) (start a b : Nat) :
    ∀ t ∈ nlTokensIn code start a b, t.kind = .newLine := by
  intro t ht
  unfold nlTokensIn at ht
  rcases List.mem_map.mp ht with ⟨i, hi, rfl⟩
  rfl

theorem stringScan_quote (fuel : Nat) :
    ∀ (s : LexState) (q : Nat), s.code.length - s.current ≤ fuel →
      s.current ≤ q → q < s.code.length →
      s.code.getD q '\x00' = '\"' →
      (∀ i, s.current ≤ i → i < q → ¬ (s.code.getD i '\x00' = '\"')) →
      (stringScan fuel s).code = s.code ∧
      (stringScan fuel s).start = s.start ∧
      (stringScan fuel s).current = q ∧
      (stringScan fuel s).tokens =
        s.tokens ++ nlTokensIn s.code s.start s.current q := by
  induction fuel with
  | zero =>
    intro s q hf hq1 hq2 hq3 hq4
    omega
  | succ f ih =>
    intro s q hf hq1 hq2 hq3 hq4
    rw [stringScan]
    rcases Nat.eq_or_lt_of_le hq1 with heq | hlt
    · have hpk : (s.peek == '\"') = true := by
        rw [LexState.peek, heq, hq3]
        simp
      rw [if_neg (by simp [bne, hpk])]
      refine ⟨rfl, rfl, heq, ?_⟩
      rw [nlTokensIn_zero s.code s.start s.current q (by omega)]
      simp
    · have heof : s.eofB = false := by
        simp only [LexState.eofB, ge_iff_le, decide_eq_false_iff_not,
          Nat.not_le]
        omega
      have hpkne : ¬ (s.peek = '\"') := by
        rw [LexState.peek]
        exact hq4 s.current (Nat.le_refl _) hlt
      rw [if_pos (by simp [heof, bne, hpkne])]
      by_cases hnl : (s.peek == '\n') = true
      · rw [if_pos hnl]
        obtain ⟨hc, hs, hcur, htk⟩ := ih (((s.eatC).2).addToken .newLine) q
          (show s.code.length - (s.current + 1) ≤ f by omega)
          (show s.current + 1 ≤ q by omega) hq2 hq3
          (fun i h1 h2 => hq4 i
            (by have h1' : s.current + 1 ≤ i := h1; omega) h2)
        refine ⟨hc, hs, hcur, ?_⟩
        rw [htk]
        show (s.tokens ++ [⟨.newLine, slice s.code s.start (s.current + 1),
          Loc.new s.start (s.current + 1)⟩]) ++
            nlTokensIn s.code s.start (s.current + 1) q = _
        rw [nlTokensIn_step s.code s.start s.current q hlt]
        rw [LexState.peek] at hnl
        rw [if_pos hnl]
        simp
      · rw [if_neg hnl]
        obtain ⟨hc, hs, hcur, htk⟩ := ih (s.eatC).2 q
          (show s.code.length - (s.current + 1) ≤ f by omega)
          (show s.current + 1 ≤ q by omega) hq2 hq3
          (fun i h1 h2 => hq4 i
            (by have h1' : s.current + 1 ≤ i := h1; omega) h2)
        refine ⟨hc, hs, hcur, ?_⟩
        rw [htk]
        show s.tokens ++ nlTokensIn s.code s.start (s.current + 1) q = _
        rw [nlTokensIn_step s.code s.start s.current q hlt]
        rw [LexState.peek] at hnl
        rw [if_neg hnl]
        simp

end Raze

namespace Raze

/-- C10: for every well-formed string literal containing `n` newline
characters, `lex_string` emits exactly `n` `NewLine` tokens positioned
immediately before the `String` token (never after it), and the
`String` token's text still contains those newlines, with only the
surrounding quotes excluded. -/
theorem claim_C10_newlines_in_strings :
    tokenize "\"a\nb\"".toList =
      .ok [⟨.newLine, "\"a\n".toList, ⟨0, 3⟩⟩,
           ⟨.string, "a\nb".toList, ⟨0, 5⟩⟩,
           ⟨.eof, "eof".toList, ⟨5, 6⟩⟩]
    ∧ ∀ (s : LexState) (q : Nat), s.current = s.start + 1 →
        s.current ≤ q → q < s.code.length →
        s.code.getD q '\x00' = '\"' →
        (∀ i, s.current ≤ i → i < q → ¬ (s.code.getD i '\x00' = '\"')) →
        (s.lexString).2 = none ∧
        (s.lexString).1.current = q + 1 ∧
        (s.lexString).1.tokens =
          s.tokens ++ nlTokensIn s.code s.start s.current q
            ++ [⟨.string, slice s.code (s.start + 1) q,
                 ⟨s.start, q + 1⟩⟩] ∧
        (nlTokensIn s.code s.start s.current q).length
          = (slice s.code (s.start + 1) q).count '\n' ∧
        (∀ t ∈ nlTokensIn s.code s.start s.current q,
          t.kind = .newLine) := by
  refine ⟨rfl, ?_⟩
  intro s q hcur0 hq1 hq2 hq3 hq4
  obtain ⟨hc, hs, hcur, htk⟩ :=
    stringScan_quote (s.code.length + 1) s q (by omega) hq1 hq2 hq3 hq4
  have heofB : (stringScan (s.code.length + 1) s).eofB = false := by
    simp only [LexState.eofB, ge_iff_le, decide_eq_false_iff_not,
      Nat.not_le]
    rw [hc, hcur]
    exact hq2
  have hlex : s.lexString =
      (((stringScan (s.code.length + 1) s).eatC).2.addValueToken .string
        (slice (stringScan (s.code.length + 1) s).code
          ((stringScan (s.code.length + 1) s).start + 1)
          (stringScan (s.code.length + 1) s).current), none) := by
    simp only [LexState.lexString, heofB, Bool.false_eq_true, if_false]
  rw [hlex]
  refine ⟨rfl, ?_, ?_, ?_, nlTokensIn_kinds _ _ _ _⟩
  · show (stringScan (s.code.length + 1) s).current + 1 = q + 1
    rw [hcur]
  · show (stringScan (s.code.length + 1) s).tokens ++
      [⟨.string, slice (stringScan (s.code.length + 1) s).code
          ((stringScan (s.code.length + 1) s).start + 1)
          (stringScan (s.code.length + 1) s).current,
        Loc.new (stringScan (s.code.length + 1) s).start
          ((stringScan (s.code.length + 1) s).current + 1)⟩] = _
    rw [htk, hc, hs, hcur]
    simp [Loc.new]
  · rw [hcur0]
    exact nlTokensIn_length_count s.code s.start (q - (s.start + 1))
      (s.start + 1) q (by omega) (by omega)

/-- Witness for C10 at the literal `"a\nb"` (state just after the
opening quote was eaten; closing quote at index 4). -/
theorem claim_C10_witness :
    ((⟨"\"a\nb\"".toList, [], 0, 1⟩ : LexState).lexString).2 = none ∧
    ((⟨"\"a\nb\"".toList, [], 0, 1⟩ : LexState).lexString).1.current
      = 4 + 1 ∧
    ((⟨"\"a\nb\"".toList, [], 0, 1⟩ : LexState).lexString).1.tokens
      = [] ++ nlTokensIn "\"a\nb\"".toList 0 1 4
          ++ [⟨.string, slice "\"a\nb\"".toList (0 + 1) 4, ⟨0, 4 + 1⟩⟩] ∧
    (nlTokensIn "\"a\nb\"".toList 0 1 4).length
      = (slice "\"a\nb\"".toList (0 + 1) 4).count '\n' ∧
    (∀ t ∈ nlTokensIn "\"a\nb\"".toList 0 1 4, t.kind = .newLine) :=
  claim_C10_newlines_in_strings.2 ⟨"\"a\nb\"".toList, [], 0, 1⟩ 4 rfl
    (by decide) (by decide) (by decide) (by decide)

end Raze

namespace Raze

theorem lexExt_refl (s : LexState) : lexExt s s :=
  ⟨rfl, [], by simp, by simp⟩

theorem lexExt_trans {a b c : LexState} (h₁ : lexExt a b)
    (h₂ : lexExt b c) : lexExt a c := by
  obtain ⟨hc₁, Δ₁, ht₁, hs₁⟩ := h₁
  obtain ⟨hc₂, Δ₂, ht₂, hs₂⟩ := h₂
  refine ⟨hc₂.trans hc₁, Δ₁ ++ Δ₂, ?_, ?_⟩
  · rw [ht₂, ht₁, List.append_assoc]
  · intro t ht
    rcases List.mem_append.mp ht with h | h
    · exact hs₁ t h
    · have := hs₂ t h
      rwa [hc₁] at this

theorem tokenTextSpecB_addToken (s : LexState) (k : TokenKind)
    (h1 : k ≠ TokenKind.string) (h2 : k ≠ TokenKind.eof) :
    tokenTextSpecB s.code
      ⟨k, slice s.code s.start s.current, Loc.new s.start s.current⟩
      = true := by
  cases k <;> first
    | exact absurd rfl h1
    | exact absurd rfl h2
    | simp [tokenTextSpecB, Loc.new]

theorem lexExt_addToken (s : LexState) (k : TokenKind)
    (h1 : k ≠ TokenKind.string) (h2 : k ≠ TokenKind.eof) :
    lexExt s (s.addToken k) := by
  refine ⟨rfl, [⟨k, slice s.code s.start s.current,
    Loc.new s.start s.current⟩], ?_, ?_⟩
  · rfl
  · intro t ht
    rcases List.mem_singleton.mp ht with rfl
    exact tokenTextSpecB_addToken s k h1 h2

theorem lexExt_of_frame {s s' : LexState} (hc : s'.code = s.code)
    (ht : s'.tokens = s.tokens) : lexExt s s' :=
  ⟨hc, [], by simp [ht], by simp⟩

theorem identScan_frame (fuel : Nat) :
    ∀ s, (identScan fuel s).code = s.code ∧
      (identScan fuel s).tokens = s.tokens ∧
      (identScan fuel s).start = s.start := by
  induction fuel with
  | zero => intro s; rw [identScan]; exact ⟨rfl, rfl, rfl⟩
  | succ f ih =>
    intro s
    rw [identScan]
    by_cases hc : (s.peek.isAlphanum || s.peek == '_') = true
    · rw [if_pos hc]; exact ih _
    · rw [if_neg hc]; exact ⟨rfl, rfl, rfl⟩

theorem commentLoop_frame (fuel : Nat) :
    ∀ s, (commentLoop fuel s).code = s.code ∧
      (commentLoop fuel s).tokens = s.tokens ∧
      (commentLoop fuel s).start = s.start := by
  induction fuel with
  | zero => intro s; rw [commentLoop]; exact ⟨rfl, rfl, rfl⟩
  | succ f ih =>
    intro s
    rw [commentLoop]
    by_cases hc : (!s.eofB && s.peek != '\n') = true
    · rw [if_pos hc]; exact ih _
    · rw [if_neg hc]; exact ⟨rfl, rfl, rfl⟩

theorem syncLoop_frame (fuel : Nat) :
    ∀ s, (syncLoop fuel s).code = s.code ∧
      (syncLoop fuel s).tokens = s.tokens ∧
      (syncLoop fuel s).start = s.start := by
  induction fuel with
  | zero => intro s; rw [syncLoop]; exact ⟨rfl, rfl, rfl⟩
  | succ f ih =>
    intro s
    rw [syncLoop]
    by_cases hc : (!s.isSkippable && s.peek != '\n' && !s.eofB) = true
    · rw [if_pos hc]; exact ih _
    · rw [if_neg hc]; exact ⟨rfl, rfl, rfl⟩

theorem synchronize_frameL (s : LexState) :
    (s.synchronize).code = s.code ∧ (s.synchronize).tokens = s.tokens := by
  unfold LexState.synchronize
  obtain ⟨h1, h2, h3⟩ := syncLoop_frame (s.code.length + 1)
    { s with current := s.start }
  exact ⟨h1, h2⟩

theorem triggerError_frameL (s : LexState) (e : LexerErr) :
    ((s.triggerError e).1).code = s.code ∧
    ((s.triggerError e).1).tokens = s.tokens :=
  synchronize_frameL s

theorem isAtC_frame (s : LexState) (c : Char) (b : Bool) (s' : LexState)
    (h : s.isAtC c = (b, s')) :
    s'.code = s.code ∧ s'.tokens = s.tokens ∧ s'.start = s.start := by
  unfold LexState.isAtC at h
  split at h
  · injection h with h1 h2; subst h2; exact ⟨rfl, rfl, rfl⟩
  · split at h
    · injection h with h1 h2; subst h2; exact ⟨rfl, rfl, rfl⟩
    · injection h with h1 h2; subst h2; exact ⟨rfl, rfl, rfl⟩

theorem stringScan_ext (fuel : Nat) :
    ∀ s, lexExt s (stringScan fuel s) := by
  induction fuel with
  | zero => intro s; rw [stringScan]; exact lexExt_refl s
  | succ f ih =>
    intro s
    rw [stringScan]
    by_cases hc : (!s.eofB && s.peek != '\"') = true
    · rw [if_pos hc]
      by_cases hnl : (s.peek == '\n') = true
      · rw [if_pos hnl]
        refine lexExt_trans ?_ (ih _)
        exact lexExt_addToken (s.eatC).2 .newLine (by simp) (by simp)
      · rw [if_neg hnl]
        exact lexExt_trans (lexExt_refl _) (ih _)
    · rw [if_neg hc]
      exact lexExt_refl s

theorem keywordLookup_ne (x : List Char) (k : TokenKind)
    (h : keywordLookup x = some k) :
    k ≠ TokenKind.string ∧ k ≠ TokenKind.eof := by
  unfold keywordLookup at h
  rcases Option.map_eq_some'.mp h with ⟨p, hp, rfl⟩
  have hmem := List.mem_of_find?_eq_some hp
  have hall : ∀ p ∈ keywords,
      p.2 ≠ TokenKind.string ∧ p.2 ≠ TokenKind.eof := by decide
  exact hall p hmem

theorem lexIdentifier_ext (s : LexState) : lexExt s s.lexIdentifier := by
  obtain ⟨hc, ht, hs⟩ := identScan_frame (s.code.length + 1) s
  simp only [LexState.lexIdentifier]
  cases hkw : keywordLookup (slice (identScan (s.code.length + 1) s).code
      (identScan (s.code.length + 1) s).start
      (identScan (s.code.length + 1) s).current) with
  | some k =>
    simp only [hkw]
    obtain ⟨h1, h2⟩ := keywordLookup_ne _ _ hkw
    exact lexExt_trans (lexExt_of_frame hc ht)
      (lexExt_addToken _ k h1 h2)
  | none =>
    simp only [hkw]
    refine lexExt_trans (lexExt_of_frame hc ht) ?_
    refine ⟨rfl, [⟨.identifier,
      slice (identScan (s.code.length + 1) s).code
        (identScan (s.code.length + 1) s).start
        (identScan (s.code.length + 1) s).current,
      Loc.new (identScan (s.code.length + 1) s).start
        (identScan (s.code.length + 1) s).current⟩], rfl, ?_⟩
    intro t htm
    rcases List.mem_singleton.mp htm with rfl
    simp [tokenTextSpecB, Loc.new]

end Raze

namespace Raze

theorem lexExt_eatC (s : LexState) : lexExt s ((s.eatC).2) :=
  lexExt_of_frame rfl rfl

theorem lexExt_sync (s : LexState) : lexExt s s.synchronize :=
  lexExt_of_frame (synchronize_frameL s).1 (synchronize_frameL s).2

theorem lexString_ext (s r : LexState) (e : Option (PhyRes LexerErr))
    (h : s.lexString = (r, e)) : lexExt s r := by
  simp only [LexState.lexString, LexState.triggerError] at h
  split at h
  · injection h with h1 h2
    subst h1
    exact lexExt_trans (stringScan_ext (s.code.length + 1) s)
      (lexExt_sync _)
  · injection h with h1 h2
    subst h1
    refine lexExt_trans (stringScan_ext (s.code.length + 1) s) ?_
    refine lexExt_trans (lexExt_eatC _) ?_
    refine ⟨rfl, [⟨.string,
      slice (stringScan (s.code.length + 1) s).code
        ((stringScan (s.code.length + 1) s).start + 1)
        (stringScan (s.code.length + 1) s).current,
      Loc.new (stringScan (s.code.length + 1) s).start
        ((stringScan (s.code.length + 1) s).current + 1)⟩], rfl, ?_⟩
    intro t htm
    rcases List.mem_singleton.mp htm with rfl
    simp only [tokenTextSpecB, Loc.new, Nat.add_sub_cancel, beq_iff_eq]
    rfl

theorem lexNumber_ext (s r : LexState) (e : Option (PhyRes LexerErr))
    (h : s.lexNumber = (r, e)) : lexExt s r := by
  have hd := digitScan_frame (s.code.length + 1) s
  simp only [LexState.lexNumber, LexState.triggerError] at h
  split at h
  · -- peek == '.'
    split at h
    · -- peekNext == '.' : Int token, two eats, DotDot token
      injection h with h1 h2
      subst h1
      refine lexExt_trans (lexExt_of_frame hd.1 hd.2.1) ?_
      refine lexExt_trans (lexExt_addToken _ .int (by simp) (by simp)) ?_
      refine lexExt_trans (lexExt_eatC _) ?_
      refine lexExt_trans (lexExt_eatC _) ?_
      exact lexExt_addToken _ .dotDot (by simp) (by simp)
    · split at h
      · -- trailing-dot Real
        injection h with h1 h2
        subst h1
        refine lexExt_trans (lexExt_of_frame hd.1 hd.2.1) ?_
        refine lexExt_trans (lexExt_eatC _) ?_
        exact lexExt_addToken _ .real (by simp) (by simp)
      · split at h
        · -- NonNumericDecimal
          injection h with h1 h2
          subst h1
          refine lexExt_trans (lexExt_of_frame hd.1 hd.2.1) ?_
          refine lexExt_trans (lexExt_eatC _) ?_
          exact lexExt_sync _
        · split at h
          · -- NoSpaceAfterNumber
            injection h with h1 h2
            subst h1
            have hd2 := digitScan_frame
              (((digitScan (s.code.length + 1) s).eatC.2).code.length + 1)
              ((digitScan (s.code.length + 1) s).eatC.2)
            refine lexExt_trans (lexExt_of_frame hd.1 hd.2.1) ?_
            refine lexExt_trans (lexExt_eatC _) ?_
            refine lexExt_trans (lexExt_of_frame hd2.1 hd2.2.1) ?_
            exact lexExt_sync _
          · -- fraction Real
            injection h with h1 h2
            subst h1
            have hd2 := digitScan_frame
              (((digitScan (s.code.length + 1) s).eatC.2).code.length + 1)
              ((digitScan (s.code.length + 1) s).eatC.2)
            refine lexExt_trans (lexExt_of_frame hd.1 hd.2.1) ?_
            refine lexExt_trans (lexExt_eatC _) ?_
            refine lexExt_trans (lexExt_of_frame hd2.1 hd2.2.1) ?_
            exact lexExt_addToken _ .real (by simp) (by simp)
  · -- plain Int
    injection h with h1 h2
    subst h1
    exact lexExt_trans (lexExt_of_frame hd.1 hd.2.1)
      (lexExt_addToken _ .int (by simp) (by simp))

end Raze

namespace Raze

theorem lexComment_frame (s : LexState) :
    (s.lexComment).code = s.code ∧ (s.lexComment).tokens = s.tokens := by
  obtain ⟨h1, h2, h3⟩ := commentLoop_frame (s.code.length + 1) s
  exact ⟨h1, h2⟩

theorem lexExt_isAtC_addToken (s₁ : LexState) (c : Char) (k : TokenKind)
    (h1 : k ≠ TokenKind.string) (h2 : k ≠ TokenKind.eof) (s : LexState)
    (hc : s₁.code = s.code) (ht : s₁.tokens = s.tokens) :
    lexExt s (((s₁.isAtC c).2).addToken k) := by
  refine lexExt_trans (lexExt_of_frame
    ((isAtC_frame s₁ c _ _ rfl).1.trans hc)
    ((isAtC_frame s₁ c _ _ rfl).2.1.trans ht)) ?_
  exact lexExt_addToken _ k h1 h2

theorem lexExt_isAtC_comment (s₁ : LexState) (c : Char) (s : LexState)
    (hc : s₁.code = s.code) (ht : s₁.tokens = s.tokens) :
    lexExt s (((s₁.isAtC c).2).lexComment) := by
  refine lexExt_trans (lexExt_of_frame
    ((isAtC_frame s₁ c _ _ rfl).1.trans hc)
    ((isAtC_frame s₁ c _ _ rfl).2.1.trans ht)) ?_
  exact lexExt_of_frame (lexComment_frame _).1 (lexComment_frame _).2

theorem lexStep_ext (s r : LexState) (e : Option (PhyRes LexerErr))
    (h : lexStep s = (r, e)) : lexExt s r := by
  simp only [lexStep, LexState.eatC, LexState.triggerError] at h
  split at h <;>
  first
  | -- skipped whitespace: state unchanged apart from the cursor
    (injection h with h1 h2
     subst h1
     exact lexExt_of_frame rfl rfl)
  | -- a single `add_token` call
    (injection h with h1 h2
     subst h1
     exact lexExt_trans (lexExt_of_frame rfl rfl)
       (lexExt_addToken _ _ (by simp) (by simp)))
  | -- one-character lookahead via `is_at`, then comment or `add_token`
    (split at h <;> (injection h with h1 h2; subst h1) <;>
     first
     | exact lexExt_isAtC_comment _ _ s rfl rfl
     | exact lexExt_isAtC_addToken _ _ _ (by simp) (by simp) s rfl rfl)
  | -- string literal
    (refine lexExt_trans ?_ (lexString_ext _ r e h)
     exact lexExt_of_frame rfl rfl)
  | -- default arm: number / identifier / unexpected-token error
    (split at h <;>
     first
     | (refine lexExt_trans ?_ (lexNumber_ext _ r e h)
        exact lexExt_of_frame rfl rfl)
     | (split at h <;> (injection h with h1 h2; subst h1) <;>
        first
        | exact lexExt_trans (lexExt_of_frame rfl rfl)
            (lexIdentifier_ext _)
        | exact lexExt_trans (lexExt_of_frame rfl rfl) (lexExt_sync _)))

end Raze

namespace Raze

/-- The scanning loop only ever appends tokens satisfying the
text/location contract, and never touches the source buffer. -/
theorem tokenizeLoop_ext (fuel : Nat) :
    ∀ (s : LexState) (errs : List (PhyRes LexerErr)),
      lexExt s (tokenizeLoop fuel s errs).1 := by
  induction fuel with
  | zero => intro s errs; exact lexExt_refl s
  | succ fuel ih =>
    intro s errs
    simp only [tokenizeLoop]
    split
    · exact lexExt_refl s
    · rcases hls : lexStep s with ⟨s₂, e⟩
      simp only [hls]
      exact lexExt_trans (lexStep_ext s s₂ e hls) (ih s₂ _)

/-- Every token in the final lexer state of `tokenize` satisfies the
text/location contract, the appended `Eof` token included. -/
theorem tokenizeRun_spec (code : List Char) :
    ∀ t ∈ (tokenizeRun code).1.tokens, tokenTextSpecB code t = true := by
  intro t ht
  rcases hloop : tokenizeLoop (code.length + 1) ⟨code, [], 0, 0⟩ []
    with ⟨s₂, errs⟩
  have hext := tokenizeLoop_ext (code.length + 1) ⟨code, [], 0, 0⟩ []
  rw [hloop] at hext
  have hext2 : lexExt ⟨code, [], 0, 0⟩ s₂ := hext
  obtain ⟨hc, Δ, htoks, hall⟩ := hext2
  simp only [tokenizeRun, hloop, List.mem_append, List.mem_singleton] at ht
  rcases ht with h1 | h2
  · rw [htoks] at h1
    simp only [List.mem_append, List.not_mem_nil, false_or] at h1
    exact hall t h1
  · subst h2
    rfl

end Raze

namespace Raze

/-- C7: counterexample to the literal claim that every token's text is
the exact source lexeme it was scanned from.  The synthetic `Eof`
token carries the fixed text `eof`, not the (empty) slice at its
location; and the `DotDot` token of `2..5` carries the text `2..`
although the two-dot lexeme it was scanned from is `..` (the lexer
does not reset `start` after finalizing the `Int` token). -/
theorem claim_C7_counterexample :
    (tokenize ([] : List Char) = .ok [⟨.eof, "eof".toList, ⟨0, 1⟩⟩] ∧
      slice ([] : List Char) 0 1 = [] ∧
      "eof".toList ≠ ([] : List Char)) ∧
    (tokenize "2..5".toList =
      .ok [⟨.int, "2".toList, ⟨0, 1⟩⟩, ⟨.dotDot, "2..".toList, ⟨0, 3⟩⟩,
           ⟨.int, "5".toList, ⟨3, 4⟩⟩, ⟨.eof, "eof".toList, ⟨4, 5⟩⟩] ∧
      slice "2..5".toList 1 3 = "..".toList ∧
      "2..".toList ≠ "..".toList) :=
  ⟨⟨rfl, rfl, by decide⟩, ⟨rfl, rfl, by decide⟩⟩

/-- C7, amended: every token produced by a successful `tokenize` call
carries the source slice at its own recorded location; string-literal
tokens carry that slice minus the surrounding quotes, and the
synthetic `Eof` token carries the fixed text `eof`. -/
theorem claim_C7_amended (code : List Char) (ts : List Token)
    (h : tokenize code = .ok ts) :
    ∀ t ∈ ts, tokenTextSpecB code t = true := by
  intro t ht
  rcases hrun : tokenizeRun code with ⟨st, errs⟩
  simp only [tokenize, hrun] at h
  split at h
  · injection h with h1
    subst h1
    exact tokenizeRun_spec code t (by rw [hrun]; exact ht)
  · simp at h

/-- Witness for amended C7: the `DotDot` token of `2..5` satisfies the
text/location contract. -/
theorem claim_C7_witness :
    tokenTextSpecB "2..5".toList ⟨.dotDot, "2..".toList, ⟨0, 3⟩⟩ = true :=
  claim_C7_amended "2..5".toList
    [⟨.int, "2".toList, ⟨0, 1⟩⟩, ⟨.dotDot, "2..".toList, ⟨0, 3⟩⟩,
     ⟨.int, "5".toList, ⟨3, 4⟩⟩, ⟨.eof, "eof".toList, ⟨4, 5⟩⟩] rfl
    ⟨.dotDot, "2..".toList, ⟨0, 3⟩⟩
    (List.mem_cons_of_mem _ (List.mem_cons_self _ _))

end Raze
